import Mathlib

/-!
# Verification of the `tedopa` time-evolution core (`tedopa/tmps.py`)

Shallow embedding of the tMPS evolution module. The functions of
`tmps.py` are translated one-to-one into Lean definitions:

* requested times and the driver's bookkeeping use exact rationals
  (the Python floats are idealized as real/rational numbers);
* dense numpy matrices become `DMat`: a size together with an entry
  function supported on the `dim × dim` block;
* the mpnum tensor-network substrate is out of scope of the module
  (spec §1, §6) and is modelled from the spec: an `MPArray` is modelled
  by its denotation, i.e. the list of per-site physical dimensions plus
  the dense global operator the network represents.  `mp.chain` is the
  Kronecker product, `mp.dot` is operator composition,
  `MPArray.compress(relerr=1e-20)` is a rank reduction that (at that
  tolerance) preserves the represented operator and is modelled as the
  identity on the denotation, while the caller-configured lossy
  compression of the evolution loop is kept abstract as a function
  argument returning the compressed state and the overlap factor;
* Python exceptions (`ValueError`, …) become `Except String`;
* Python aliasing semantics are modelled explicitly where they matter:
  `_normalize` rebinds its local parameter and returns `None`, so its
  caller-visible effect is the identity; `_times_to_steps` mutates the
  caller's list, so `evolve` is modelled to also return the values the
  caller's variables hold when the call exits.
-/

namespace Tmps

/-- Python 3 `round`: round to the nearest integer, ties to the even
integer (banker's rounding), here on exact rationals. -/
def pyRound (q : ℚ) : ℤ :=
  let fl := ⌊q⌋
  let frac := q - fl
  if frac < 1/2 then fl
  else if 1/2 < frac then fl + 1
  else if Even fl then fl else fl + 1

/-- `_times_to_steps` from tmps.py: `times.sort()`, then
`tau = times[-1] / num_trotter_slices`, then
`times[:] = [int(round(t / tau)) for t in times]`, returning `tau`.
The Python function mutates the caller's list; the embedding returns the
pair (returned `tau`, new contents of the caller's list).  On an empty
list the Python code raises IndexError; that case is unreachable from
`evolve` (the all-zero-times check fires first) and is given the
junk value `getD 0` here. -/
def _times_to_steps (times : List ℚ) (num_trotter_slices : ℕ) : ℚ × List ℤ :=
  let sorted := times.insertionSort (· ≤ ·)
  let tau : ℚ := sorted.getLast?.getD 0 / num_trotter_slices
  (tau, sorted.map (fun t => pyRound (t / tau)))

/-- A dense numpy-style square matrix: its size and an entry function,
meaningful on (and for all constructors below supported on) the
`dim × dim` block. -/
structure DMat where
  dim : ℕ
  f : ℕ → ℕ → ℂ

/-- `np.zeros((d, d))`. -/
def zeroD (d : ℕ) : DMat := ⟨d, fun _ _ => 0⟩

/-- `np.identity(d)`. -/
def idD (d : ℕ) : DMat := ⟨d, fun i j => if i = j ∧ i < d then 1 else 0⟩

/-- Entrywise sum of two same-shape dense matrices. -/
def addD (A B : DMat) : DMat := ⟨A.dim, fun i j => A.f i j + B.f i j⟩

/-- Scalar times dense matrix. -/
def smulD (c : ℂ) (A : DMat) : DMat := ⟨A.dim, fun i j => c * A.f i j⟩

/-- `np.kron A B` in the flat encoding: entry `(i, j)` is
`A (i / B.dim) (j / B.dim) * B (i % B.dim) (j % B.dim)`. -/
def kronD (A B : DMat) : DMat :=
  ⟨A.dim * B.dim, fun i j =>
    A.f (i / B.dim) (j / B.dim) * B.f (i % B.dim) (j % B.dim)⟩

/-- `scipy.linalg.expm`: the matrix exponential of the `dim × dim` block. -/
noncomputable def expD (A : DMat) : DMat :=
  ⟨A.dim, fun i j =>
    if h : i < A.dim ∧ j < A.dim then
      NormedSpace.exp ℂ (Matrix.of fun a b : Fin A.dim => A.f a b) ⟨i, h.1⟩ ⟨j, h.2⟩
    else 0⟩

/-- Modelled from the spec (§6): the out-of-scope mpnum substrate
represents an operator on a chain of sites; an `MPArray` is modelled by
its denotation: per-site physical dimensions and the represented dense
global operator (supported on the `dims.prod × dims.prod` block). -/
structure MPA where
  dims : List ℕ
  f : ℕ → ℕ → ℂ

/-- The identity network on sites of physical dimensions `ds`. -/
def idMPA (ds : List ℕ) : MPA :=
  ⟨ds, fun i j => if i = j ∧ i < ds.prod then 1 else 0⟩

/-- Modelled from the spec (§6): `mp.chain` of two networks concatenates
the chains; the represented operator is the Kronecker product. -/
def chainM (A B : MPA) : MPA :=
  ⟨A.dims ++ B.dims, fun i j =>
    A.f (i / B.dims.prod) (j / B.dims.prod) * B.f (i % B.dims.prod) (j % B.dims.prod)⟩

/-- `mp.chain` over a list of networks. -/
def chainL (l : List MPA) : MPA := l.foldr chainM (idMPA [])

/-- Modelled from the spec (§6): `mp.dot`, binary contraction of two
same-length networks: composition of the represented operators. -/
noncomputable def dotM (A B : MPA) : MPA :=
  ⟨A.dims, fun i j => ∑ k ∈ Finset.range A.dims.prod, A.f i k * B.f k j⟩

/-- `u.T.conj()`: conjugate transpose of an operator network. -/
def adjM (A : MPA) : MPA := ⟨A.dims, fun i j => (starRingEnd ℂ) (A.f j i)⟩

/-- Modelled from the spec (§6): `mp.trace`. -/
noncomputable def traceM (A : MPA) : ℂ := ∑ i ∈ Finset.range A.dims.prod, A.f i i

/-- Modelled from the spec (§6): `mp.norm` (Frobenius norm). -/
noncomputable def normM (A : MPA) : ℝ :=
  Real.sqrt (∑ i ∈ Finset.range A.dims.prod, ∑ j ∈ Finset.range A.dims.prod,
    Complex.normSq (A.f i j))

/-- `mp.eye(sites, dim)`: identity MPO on `sites` sites of dimension `dim`. -/
def mpEye (sites dim : ℕ) : MPA := idMPA (List.replicate sites dim)

/-- Modelled from the spec (§4.4): `MPArray.compress(relerr=1e-20)` is
the in-place rank reduction "meant to get unnecessary ranks out of a
state without losing information"; at that tolerance it preserves the
represented operator, so on the denotation it is the identity. -/
def mpCompressSmall (state : MPA) : MPA := state

/-- The representation convention (`method` parameter): `'mpo'` or `'pmps'`. -/
inductive Method where
  | mpo : Method
  | pmps : Method
deriving DecidableEq

/-- The `hamiltonians` argument of `evolve`: either `[H_i, H_ij]` (one
site operator and one bond operator, the first element is not a Python
list) or `[[h1, h2, ...], [h12, h23, ...]]` (explicit per-site and
per-bond lists, the first element is a Python list). -/
inductive HamInput where
  | single (h hb : DMat) : HamInput
  | lists (hl hbl : List DMat) : HamInput

set_option linter.unusedVariables false in
/-- `_normalize` from tmps.py.  Its body rebinds the LOCAL name `state`
to `state / mp.norm(state)` (pmps) resp. `state / mp.trace(state)` (mpo)
and returns `None`; rebinding a parameter never reaches the caller, so
the caller-visible effect of `_normalize(state, method)` is to leave
`state` unchanged.  The value the local is rebound to before being
discarded is `_normalize_localValue` below. -/
def _normalize (state : MPA) (method : Method) : MPA := state

/-- The value `_normalize`'s local variable holds after its two `if`
statements: the normalization the code intends (state divided by its
norm for pmps, by its trace for mpo) but never delivers to its caller. -/
noncomputable def _normalize_localValue (state : MPA) (method : Method) : MPA :=
  let st : MPA :=
    if method = .pmps then ⟨state.dims, fun i j => state.f i j / (normM state : ℂ)⟩
    else state
  if method = .mpo then ⟨st.dims, fun i j => st.f i j / traceM st⟩ else st

/-- `_compress` from tmps.py: `state.compress(relerr=1e-20)` mutates the
array in place; the following `state = _normalize(state, method)` binds
the local to `_normalize`'s return value (`None`) and has no
caller-visible effect.  The caller-visible effect of the call is the
small-relerr compression alone. -/
def _compress (state : MPA) (method : Method) : MPA :=
  _normalize (mpCompressSmall state) method

/-- `_get_h_list` from tmps.py: expand a single (site, bond) pair into
explicit lists, or validate explicitly given list lengths. -/
def _get_h_list (hs : HamInput) (num_sites : ℕ) : Except String (List DMat × List DMat) :=
  match hs with
  | .single h hb =>
      .ok (List.replicate num_sites h, List.replicate (num_sites - 1) hb)
  | .lists hl hbl =>
      if hl.length ≠ num_sites ∨ hbl.length ≠ num_sites - 1 then
        .error "Number of given Hamiltonians does not match number of sites"
      else
        .ok (hl, hbl)

/-- Python slice `xs[::2]`. -/
def everySecond {α : Type} : List α → List α
  | [] => []
  | [a] => [a]
  | a :: _ :: rest => a :: everySecond rest

/-- The list `h_2sites` of `_get_u_list`:
`np.kron(h_single[i], identity) + np.kron(identity, h_single[i+1])` for
`i in range(0, len(h_single) - 1, 2)`. -/
def h2sitesList : List DMat → List DMat
  | a :: b :: rest =>
      addD (kronD a (idD b.dim)) (kronD (idD a.dim) b) :: h2sitesList rest
  | _ => []

/-- The list `u_odd` of `_get_u_list` before the possible trailing
single-site factor: `expm(-1j * tau / 2 * (h + h_2sites[i]))` for
`i, h in enumerate(h_adjacent[::2])`. -/
noncomputable def uOddBase (h_single h_adjacent : List DMat) (tau : ℝ) : List DMat :=
  List.zipWith (fun h h2 => expD (smulD (-Complex.I * tau / 2) (addD h h2)))
    (everySecond h_adjacent) (h2sitesList h_single)

/-- The list `u_even` of `_get_u_list`:
`expm(-1j * tau * h)` for `h in h_adjacent[1::2]`. -/
noncomputable def uEvenList (h_adjacent : List DMat) (tau : ℝ) : List DMat :=
  (everySecond h_adjacent.tail).map (fun h => expD (smulD (-Complex.I * tau) h))

/-- `_get_u_list` from tmps.py: dimensions, odd-bond operators (with the
trailing `expm(-1j * tau / 2 * h_single[-1])` appended exactly when
`len(u_odd) == len(u_even)`), even-bond operators. -/
noncomputable def _get_u_list (h_single h_adjacent : List DMat) (tau : ℝ) :
    List ℕ × List DMat × List DMat :=
  let dims := h_single.map DMat.dim
  let u_odd := uOddBase h_single h_adjacent tau
  let u_even := uEvenList h_adjacent tau
  if u_odd.length = u_even.length then
    (dims,
     u_odd ++ [expD (smulD (-Complex.I * tau / 2) (h_single.getLast?.getD (zeroD 0)))],
     u_even)
  else
    (dims, u_odd, u_even)

/-- `matrix_to_mpo` from tmps.py: check that every site of `shape` has
the same number of physical legs (else `ValueError`), then reshape the
dense matrix into network-local blocks (which preserves the represented
operator) and `_compress` the result. -/
def matrix_to_mpo (matrix : DMat) (shape : List (List ℕ)) : Except String MPA :=
  let num_legs := (shape.headD []).length
  if shape.all (fun s => s.length = num_legs) then
    .ok (_compress ⟨shape.map (fun s => s.headD 1), matrix.f⟩ .mpo)
  else
    .error "Not all sites have the same number of physical legs"

/-- The adjacent pairs `(l[0], l[1]), (l[2], l[3]), ...` taken two at a
time, mirroring the index pattern `2*i, 2*i + 1` of `_u_list_to_mpo`. -/
def pairsOf : List ℕ → List (ℕ × ℕ)
  | a :: b :: rest => (a, b) :: pairsOf rest
  | _ => []

/-- `_u_list_to_mpo` from tmps.py.  If the chain length is odd, the last
element of `u_odd` is set aside as `last_h` and `u_odd` is truncated;
the `u_odd`/`u_even` operators are reshaped to two-site blocks and
chained; the even network is padded with `mp.eye(1, dims[0])` at the
front and, when `len(u_odd) > len(u_even)`, with `mp.eye(1, dims[-1])`
at the end; when instead `len(u_even) == len(u_odd)`, `last_h` (a Python
NameError if it was never bound, i.e. the chain length is even) is
reshaped to a single-site block and appended to the odd network. -/
def _u_list_to_mpo (dims : List ℕ) (u_odd0 u_even : List DMat) :
    Except String (MPA × MPA) := do
  let last_h : Option DMat :=
    if dims.length % 2 = 1 then u_odd0.getLast? else none
  let u_odd : List DMat :=
    if dims.length % 2 = 1 then u_odd0.dropLast else u_odd0
  let oddParts ← (u_odd.zip (pairsOf dims)).mapM
    (fun p => matrix_to_mpo p.1 [[p.2.1, p.2.1], [p.2.2, p.2.2]])
  let evenParts ← (u_even.zip (pairsOf dims.tail)).mapM
    (fun p => matrix_to_mpo p.1 [[p.2.1, p.2.1], [p.2.2, p.2.2]])
  let odd := chainL oddParts
  let even := chainM (mpEye 1 (dims.headD 0)) (chainL evenParts)
  if u_odd.length > u_even.length then
    return (odd, chainM even (mpEye 1 (dims.getLast?.getD 0)))
  else if u_even.length = u_odd.length then
    match last_h with
    | some lh => do
        let lmpo ← matrix_to_mpo lh [[dims.getLast?.getD 0, dims.getLast?.getD 0]]
        return (chainM odd lmpo, even)
    | none => .error "NameError: name last_h is not defined"
  else
    return (odd, even)

/-- `_trotter_two` from tmps.py: the order-2 slice
`mp.dot(mp.dot(u_odd, u_even), u_odd)`. -/
noncomputable def _trotter_two (hamiltonians : HamInput) (tau : ℝ) (num_sites : ℕ) :
    Except String MPA := do
  let hl ← _get_h_list hamiltonians num_sites
  let ul := _get_u_list hl.1 hl.2 tau
  let oe ← _u_list_to_mpo ul.1 ul.2.1 ul.2.2
  return dotM (dotM oe.1 oe.2) oe.1

/-- `_trotter_four` from tmps.py: order-2 sub-slices for the rescaled
increments `taus = [tau/(4 - 4^(1/3)), tau/(4 - 4^(1/3)),
tau - 4*tau/(4 - 4^(1/3))]` (the source builds the three `_get_u_list` /
`_u_list_to_mpo` results in a list and indexes it; the embedding names
them), composed as `dot(dot(parts[0], parts[1]), parts[2])`, compressed,
then composed with `parts[1]` and `parts[0]`. -/
noncomputable def _trotter_four (hamiltonians : HamInput) (tau : ℝ) (num_sites : ℕ) :
    Except String MPA := do
  let t1 : ℝ := tau / (4 - (4:ℝ) ^ ((1:ℝ) / 3))
  let t2 : ℝ := tau / (4 - (4:ℝ) ^ ((1:ℝ) / 3))
  let t3 : ℝ := tau - 4 * tau / (4 - (4:ℝ) ^ ((1:ℝ) / 3))
  let hl ← _get_h_list hamiltonians num_sites
  let ul1 := _get_u_list hl.1 hl.2 t1
  let ul2 := _get_u_list hl.1 hl.2 t2
  let ul3 := _get_u_list hl.1 hl.2 t3
  let um1 ← _u_list_to_mpo ul1.1 ul1.2.1 ul1.2.2
  let um2 ← _u_list_to_mpo ul2.1 ul2.2.1 ul2.2.2
  let um3 ← _u_list_to_mpo ul3.1 ul3.2.1 ul3.2.2
  let p0 := dotM (dotM um1.1 um1.2) um1.1
  let p1 := dotM (dotM um2.1 um2.2) um2.1
  let p2 := dotM (dotM um3.1 um3.2) um3.1
  let u := _compress (dotM (dotM p0 p1) p2) .mpo
  return dotM (dotM u p1) p0

/-- `_trotter_slice` from tmps.py: dispatch on the Trotter order,
`ValueError` for orders other than 2 and 4. -/
noncomputable def _trotter_slice (hamiltonians : HamInput) (tau : ℝ) (num_sites : ℕ)
    (trotter_order : ℕ) : Except String MPA :=
  if trotter_order = 2 then _trotter_two hamiltonians tau num_sites
  else if trotter_order = 4 then _trotter_four hamiltonians tau num_sites
  else .error ("Trotter order " ++ toString trotter_order ++ " is currently not implemented.")

/-- The local state of `_time_evolution`'s loop: the evolving state, the
four result lists, and the two accumulators. -/
structure EvolState where
  state : MPA
  times : List ℚ
  states : List MPA
  comprErrors : List ℚ
  trotErrors : List ℚ
  overlap : ℚ
  trot : ℚ

/-- Whether loop iteration `i` (i.e. step `i + 1`) is one of the
requested steps: the test `i + 1 in ts` of the loop. -/
def stepHit (ts : List ℤ) (i : ℕ) : Bool := ((i : ℤ) + 1) ∈ ts

/-- One iteration `i` of the loop of `_time_evolution`:
`state = mp.dot(u, state)`; for mpo additionally
`state = mp.dot(state, u_dagger)`; `_normalize(state, method)` (no
caller-visible effect); `accumulated_overlap *= state.compress(**compr)`
(the caller-configured lossy compression `comprFn` returns the
compressed state and the overlap factor); `accumulated_trotter_error +=
tau**3`; and if `i + 1 in ts`, append time, state snapshot and both
accumulators to the result lists. -/
noncomputable def _te_step (u : MPA) (ts : List ℤ) (tau : ℚ) (method : Method)
    (comprFn : MPA → MPA × ℚ) (es : EvolState) (i : ℕ) : EvolState :=
  let s1 := dotM u es.state
  let s2 := if method = .mpo then dotM s1 (adjM u) else s1
  let s3 := _normalize s2 method
  let cp := comprFn s3
  let overlap := es.overlap * cp.2
  let trot := es.trot + tau ^ 3
  if ((i : ℤ) + 1) ∈ ts then
    ⟨cp.1, es.times ++ [tau * ((i : ℚ) + 1)], es.states ++ [cp.1],
     es.comprErrors ++ [overlap], es.trotErrors ++ [trot], overlap, trot⟩
  else
    ⟨cp.1, es.times, es.states, es.comprErrors, es.trotErrors, overlap, trot⟩

/-- `_time_evolution` from tmps.py: initialize the four result lists
with the `t = 0` entry when `ts[0] == 0`, then run the loop
`for i in range(ts[-1])` and return the four lists. -/
noncomputable def _time_evolution (state u : MPA) (ts : List ℤ) (tau : ℚ)
    (method : Method) (comprFn : MPA → MPA × ℚ) :
    List ℚ × List MPA × List ℚ × List ℚ :=
  let init : EvolState :=
    if ts.head? = some 0 then ⟨state, [0], [state], [0], [0], 1, 0⟩
    else ⟨state, [], [], [], [], 1, 0⟩
  let fin := (List.range (ts.getLast?.getD 0).toNat).foldl
    (_te_step u ts tau method comprFn) init
  (fin.times, fin.states, fin.comprErrors, fin.trotErrors)

/-- What a call to `evolve` leaves behind: the returned value (or the
raised error), plus the values of the two caller-owned arguments that
the Python code can mutate in place - the state array and the times
list - at the moment the call exits. -/
structure EvolveExit where
  result : Except String (List ℚ × List MPA × List ℚ × List ℚ)
  stateAfter : MPA
  tsAfter : List ℚ

/-- `evolve` from tmps.py: initial `_compress(state, method)` (in-place
on the caller's array), the two precondition checks, the in-place
conversion of `ts` to step indices, slice construction, compression of
the slice, and the evolution loop.  `tsAfter` records the contents of
the caller's `ts` list at exit (Python ints are embedded into ℚ for
comparison with the original entries). -/
noncomputable def evolve (state : MPA) (hamiltonians : HamInput) (ts : List ℚ)
    (num_trotter_slices : ℕ) (method : Method) (comprFn : MPA → MPA × ℚ)
    (trotter_order : ℕ) : EvolveExit :=
  let state1 := _compress state method
  if state1.dims.length < 3 then
    ⟨.error "State has too few sites", state1, ts⟩
  else if ts.all (fun t => t = 0) then
    ⟨.error "No time evolution requested by the user. Check your input t", state1, ts⟩
  else
    let ts1 := _times_to_steps ts num_trotter_slices
    match _trotter_slice hamiltonians (ts1.1 : ℝ) state1.dims.length trotter_order with
    | .error e => ⟨.error e, state1, ts1.2.map (fun z => (z : ℚ))⟩
    | .ok u =>
        let u1 := _compress u method
        ⟨.ok (_time_evolution state1 u1 ts1.2 ts1.1 method comprFn), state1,
         ts1.2.map (fun z => (z : ℚ))⟩

/-- All-zero site Hamiltonians for a chain with dimension list `ds`. -/
def zeroSites (ds : List ℕ) : List DMat := ds.map zeroD

/-- All-zero bond Hamiltonians for a chain with dimension list `ds`: one
zero matrix on each adjacent-pair joint space. -/
def zeroBonds : List ℕ → List DMat
  | a :: b :: rest => zeroD (a * b) :: zeroBonds (b :: rest)
  | _ => []

/-- Wellformedness of the `hamiltonians` argument for an `n`-site chain:
explicit lists must have lengths `n` and `n - 1`; a single (site, bond)
pair is always accepted. -/
def HamOk : HamInput → ℕ → Prop
  | .single _ _, _ => True
  | .lists hl hbl, n => hl.length = n ∧ hbl.length = n - 1

/-- A concrete unnormalized 3-site state (three sites of physical
dimension 1, represented global operator `[[2]]`, trace 2). -/
def rho2 : MPA := ⟨[1, 1, 1], fun i j => if i = 0 ∧ j = 0 then 2 else 0⟩

/- ======================================================================
Helper lemmas
====================================================================== -/

theorem DMat_ext' {A B : DMat} (hd : A.dim = B.dim) (hf : A.f = B.f) : A = B := by
  cases A; cases B; cases hd; cases hf; rfl

theorem MPA_ext' {A B : MPA} (hd : A.dims = B.dims) (hf : A.f = B.f) : A = B := by
  cases A; cases B; cases hd; cases hf; rfl

theorem zeroD_dim (d : ℕ) : (zeroD d).dim = d := rfl

theorem zeroD_f (d : ℕ) (i j : ℕ) : (zeroD d).f i j = 0 := rfl

/-- The matrix exponential of a block whose entries all vanish is the
identity block of the same size. -/
theorem expD_of_zero (A : DMat) (h : ∀ i j, A.f i j = 0) : expD A = idD A.dim := by
  apply DMat_ext'
  · rfl
  funext i j
  simp only [expD, idD]
  rcases Decidable.em (i < A.dim ∧ j < A.dim) with hb | hb
  · rw [dif_pos hb]
    have hz : (Matrix.of fun a b : Fin A.dim => A.f a b) = 0 := by
      ext a b; simp [h]
    rw [hz, NormedSpace.exp_zero]
    by_cases hij : i = j
    · subst hij
      simp [Matrix.one_apply, hb.1]
    · have hfin : (⟨i, hb.1⟩ : Fin A.dim) ≠ ⟨j, hb.2⟩ := by
        simp [Fin.ext_iff, hij]
      simp [Matrix.one_apply_ne hfin, hij]
  · rw [dif_neg hb]
    have hcond : ¬(i = j ∧ i < A.dim) := by
      rintro ⟨rfl, hi⟩; exact hb ⟨hi, hi⟩
    simp [hcond]

/-- The combined two-site block built from two zero site Hamiltonians is
the zero block on the joint space. -/
theorem h2block_zero (a b : ℕ) :
    addD (kronD (zeroD a) (idD b)) (kronD (idD a) (zeroD b)) = zeroD (a * b) := by
  apply DMat_ext'
  · rfl
  funext i j
  simp [addD, kronD, zeroD]

theorem expD_zero_pairBlock (c : ℂ) (d : ℕ) :
    expD (smulD c (addD (zeroD d) (zeroD d))) = idD d :=
  expD_of_zero _ (fun i j => by simp [smulD, addD, zeroD])

theorem expD_zero_single (c : ℂ) (d : ℕ) : expD (smulD c (zeroD d)) = idD d :=
  expD_of_zero _ (fun i j => by simp [smulD, zeroD])

/-- Chaining two identity networks yields the identity network on the
concatenated chain. -/
theorem chainM_idMPA (l1 l2 : List ℕ) :
    chainM (idMPA l1) (idMPA l2) = idMPA (l1 ++ l2) := by
  apply MPA_ext'
  · simp [chainM, idMPA]
  · funext i j
    simp only [chainM, idMPA, List.prod_append]
    rcases Nat.eq_zero_or_pos l2.prod with hq | hq
    · simp [hq]
    · by_cases hij : i = j
      · subst hij
        by_cases hi : i < l1.prod * l2.prod
        · have h1 : i / l2.prod < l1.prod := (Nat.div_lt_iff_lt_mul hq).2 hi
          have h2 : i % l2.prod < l2.prod := Nat.mod_lt _ hq
          simp [h1, h2, hi]
        · have h1 : ¬ i / l2.prod < l1.prod :=
            fun hcon => hi ((Nat.div_lt_iff_lt_mul hq).1 hcon)
          simp [hi, h1]
      · have hsplit : i / l2.prod ≠ j / l2.prod ∨ i % l2.prod ≠ j % l2.prod := by
          by_contra hcon
          push_neg at hcon
          apply hij
          have hi' := (Nat.div_add_mod i l2.prod).symm
          rw [hi', hcon.1, hcon.2, Nat.div_add_mod j l2.prod]
        have hne : ¬(i = j ∧ i < l1.prod * l2.prod) := fun hc => hij hc.1
        rcases hsplit with h | h <;> simp [h, hne]

/-- Contracting the identity network with itself yields the identity
network. -/
theorem dotM_idMPA_idMPA (ds : List ℕ) : dotM (idMPA ds) (idMPA ds) = idMPA ds := by
  apply MPA_ext'
  · rfl
  funext i j
  simp only [dotM, idMPA]
  by_cases hij : i = j ∧ i < ds.prod
  · obtain ⟨rfl, hi⟩ := hij
    rw [Finset.sum_eq_single_of_mem i (Finset.mem_range.2 hi)]
    · simp [hi]
    · intro k _ hki
      have : ¬(i = k ∧ i < ds.prod) := fun hc => hki hc.1.symm
      simp [this]
  · rw [if_neg hij]
    apply Finset.sum_eq_zero
    intro k _
    by_cases h1 : i = k ∧ i < ds.prod
    · by_cases h2 : k = j ∧ k < ds.prod
      · exact absurd ⟨h1.1.trans h2.1, h1.2⟩ hij
      · simp [h2]
    · simp [h1]

theorem chainL_cons (x : MPA) (xs : List MPA) : chainL (x :: xs) = chainM x (chainL xs) := rfl

/-- Chaining a list of identity networks yields the identity network on
the concatenation of their chains. -/
theorem chainL_idMPA (ps : List (List ℕ)) :
    chainL (ps.map idMPA) = idMPA ps.flatten := by
  induction ps with
  | nil => rfl
  | cons a t ih => simp [chainL_cons, ih, chainM_idMPA]

theorem mpEye_one (d : ℕ) : mpEye 1 d = idMPA [d] := rfl

theorem matrix_to_mpo_pair (m : DMat) (a b : ℕ) :
    matrix_to_mpo m [[a, a], [b, b]] = .ok ⟨[a, b], m.f⟩ := rfl

theorem matrix_to_mpo_single (m : DMat) (d : ℕ) :
    matrix_to_mpo m [[d, d]] = .ok ⟨[d], m.f⟩ := rfl

theorem mk_idD_pair (a b : ℕ) : (⟨[a, b], (idD (a * b)).f⟩ : MPA) = idMPA [a, b] := by
  apply MPA_ext'
  · rfl
  funext i j
  simp [idD, idMPA]

theorem mk_idD_single (d : ℕ) : (⟨[d], (idD d).f⟩ : MPA) = idMPA [d] := by
  apply MPA_ext'
  · rfl
  funext i j
  simp [idD, idMPA]

/-- `mapM` over a list on which the function always succeeds. -/
theorem mapM_ok {α β : Type} (l : List α) (F : α → Except String β) (g : α → β)
    (h : ∀ x ∈ l, F x = .ok (g x)) : l.mapM F = .ok (l.map g) := by
  induction l with
  | nil => rfl
  | cons a t ih =>
      simp only [List.mapM_cons, h a (by simp), ih (fun x hx => h x (by simp [hx]))]
      rfl

theorem bind_ok {α β : Type} (a : α) (f : α → Except String β) :
    (Except.ok a : Except String α) >>= f = f a := rfl

theorem bind_error {α β : Type} (e : String) (f : α → Except String β) :
    (Except.error e : Except String α) >>= f = .error e := rfl

theorem map_ok {α β : Type} (g : α → β) (a : α) :
    g <$> (Except.ok a : Except String α) = .ok (g a) := rfl

theorem map_error {α β : Type} (g : α → β) (e : String) :
    g <$> (Except.error e : Except String α) = .error e := rfl

theorem bind_pure {α β : Type} (a : α) (f : α → Except String β) :
    (pure a : Except String α) >>= f = f a := rfl

theorem zip_map_self {α β : Type} (l : List α) (f : α → β) :
    (l.map f).zip l = l.map (fun x => (f x, x)) := by
  induction l with
  | nil => rfl
  | cons a t ih => simp [ih]

theorem everySecond_length {α : Type} : ∀ l : List α,
    (everySecond l).length = (l.length + 1) / 2
  | [] => by simp [everySecond]
  | [_] => by simp [everySecond]
  | _ :: _ :: rest => by
      simp only [everySecond, List.length_cons, everySecond_length rest]
      omega

theorem h2sitesList_length : ∀ l : List DMat, (h2sitesList l).length = l.length / 2
  | [] => by simp [h2sitesList]
  | [_] => by simp [h2sitesList]
  | _ :: _ :: rest => by
      simp only [h2sitesList, List.length_cons, h2sitesList_length rest]
      omega

theorem pairsOf_length : ∀ l : List ℕ, (pairsOf l).length = l.length / 2
  | [] => by simp [pairsOf]
  | [_] => by simp [pairsOf]
  | _ :: _ :: rest => by
      simp only [pairsOf, List.length_cons, pairsOf_length rest]
      omega

/-- Flattening the two-at-a-time pairs of an even-length list recovers
the list. -/
theorem pairsOf_flatten_even : ∀ l : List ℕ, l.length % 2 = 0 →
    ((pairsOf l).map (fun p => [p.1, p.2])).flatten = l
  | [], _ => rfl
  | [_], h => by simp at h
  | a :: b :: rest, h => by
      simp only [pairsOf, List.map_cons, List.flatten_cons]
      rw [pairsOf_flatten_even rest (by simp at h; omega)]
      rfl

/-- Flattening the two-at-a-time pairs of an odd-length list recovers
the list without its last element. -/
theorem pairsOf_flatten_odd : ∀ l : List ℕ, l.length % 2 = 1 →
    ((pairsOf l).map (fun p => [p.1, p.2])).flatten = l.dropLast
  | [], h => by simp at h
  | [_], _ => rfl
  | a :: b :: rest, h => by
      simp only [pairsOf, List.map_cons, List.flatten_cons]
      rw [pairsOf_flatten_odd rest (by simp at h; omega)]
      cases rest with
      | nil => simp at h
      | cons c t => rfl

theorem headD_cons_tail {α : Type} (l : List α) (d : α) (h : l ≠ []) :
    l.headD d :: l.tail = l := by
  cases l with
  | nil => exact absurd rfl h
  | cons a t => rfl

theorem zeroBonds_tail : ∀ ds : List ℕ, (zeroBonds ds).tail = zeroBonds ds.tail
  | [] => rfl
  | [_] => rfl
  | _ :: _ :: _ => rfl

theorem zeroBonds_length : ∀ ds : List ℕ, (zeroBonds ds).length = ds.length - 1
  | [] => rfl
  | [_] => rfl
  | _ :: b :: rest => by
      simp only [zeroBonds, List.length_cons, zeroBonds_length (b :: rest)]
      omega

theorem everySecond_zeroBonds : ∀ ds : List ℕ,
    everySecond (zeroBonds ds) = (pairsOf ds).map (fun p => zeroD (p.1 * p.2))
  | [] => rfl
  | [_] => rfl
  | [_, _] => rfl
  | a :: b :: c :: rest => by
      show everySecond (zeroD (a * b) :: zeroD (b * c) :: zeroBonds (c :: rest)) = _
      simp only [everySecond, pairsOf, List.map_cons]
      rw [everySecond_zeroBonds (c :: rest)]

theorem h2sitesList_zeroSites : ∀ ds : List ℕ,
    h2sitesList (zeroSites ds) = (pairsOf ds).map (fun p => zeroD (p.1 * p.2))
  | [] => rfl
  | [_] => rfl
  | a :: b :: rest => by
      show h2sitesList (zeroD a :: zeroD b :: zeroSites rest) = _
      simp only [h2sitesList, pairsOf, List.map_cons]
      rw [h2sitesList_zeroSites rest]
      simp only [zeroD_dim, h2block_zero]

theorem uOddBase_zeros (ds : List ℕ) (τ : ℝ) :
    uOddBase (zeroSites ds) (zeroBonds ds) τ =
      (pairsOf ds).map (fun p => idD (p.1 * p.2)) := by
  unfold uOddBase
  rw [everySecond_zeroBonds, h2sitesList_zeroSites, List.zipWith_map, List.zipWith_same]
  simp [expD_zero_pairBlock]

theorem uEvenList_zeros (ds : List ℕ) (τ : ℝ) :
    uEvenList (zeroBonds ds) τ = (pairsOf ds.tail).map (fun p => idD (p.1 * p.2)) := by
  unfold uEvenList
  rw [zeroBonds_tail, everySecond_zeroBonds, List.map_map]
  simp [Function.comp_def, expD_zero_single]

theorem zeroSites_dims (ds : List ℕ) : (zeroSites ds).map DMat.dim = ds := by
  simp [zeroSites, List.map_map, Function.comp_def, zeroD_dim]

theorem zeroSites_getLast (ds : List ℕ) (h : ds ≠ []) :
    (zeroSites ds).getLast?.getD (zeroD 0) = zeroD (ds.getLast h) := by
  simp [zeroSites, List.getLast?_map, List.getLast?_eq_getLast ds h]

theorem get_u_list_zeros_odd (ds : List ℕ) (τ : ℝ) (h1 : ds ≠ [])
    (hodd : ds.length % 2 = 1) :
    _get_u_list (zeroSites ds) (zeroBonds ds) τ =
      (ds, (pairsOf ds).map (fun p => idD (p.1 * p.2)) ++ [idD (ds.getLast h1)],
       (pairsOf ds.tail).map (fun p => idD (p.1 * p.2))) := by
  unfold _get_u_list
  rw [uOddBase_zeros, uEvenList_zeros]
  have hlen : ((pairsOf ds).map (fun p => idD (p.1 * p.2))).length =
      ((pairsOf ds.tail).map (fun p => idD (p.1 * p.2))).length := by
    simp only [List.length_map, pairsOf_length, List.length_tail]
    omega
  rw [if_pos hlen, zeroSites_dims, zeroSites_getLast ds h1, expD_zero_single]

theorem get_u_list_zeros_even (ds : List ℕ) (τ : ℝ) (h2 : 2 ≤ ds.length)
    (heven : ds.length % 2 = 0) :
    _get_u_list (zeroSites ds) (zeroBonds ds) τ =
      (ds, (pairsOf ds).map (fun p => idD (p.1 * p.2)),
       (pairsOf ds.tail).map (fun p => idD (p.1 * p.2))) := by
  unfold _get_u_list
  rw [uOddBase_zeros, uEvenList_zeros]
  have hlen : ¬ ((pairsOf ds).map (fun p => idD (p.1 * p.2))).length =
      ((pairsOf ds.tail).map (fun p => idD (p.1 * p.2))).length := by
    simp only [List.length_map, pairsOf_length, List.length_tail]
    omega
  rw [if_neg hlen, zeroSites_dims]

theorem matrix_to_mpo_idD_pair (p : ℕ × ℕ) :
    matrix_to_mpo (idD (p.1 * p.2)) [[p.1, p.1], [p.2, p.2]] = .ok (idMPA [p.1, p.2]) := by
  rw [matrix_to_mpo_pair, mk_idD_pair]

theorem chainL_idPairs (l : List (ℕ × ℕ)) :
    chainL (l.map (fun p => idMPA [p.1, p.2])) =
      idMPA ((l.map (fun p => [p.1, p.2])).flatten) := by
  have h : l.map (fun p => idMPA [p.1, p.2]) = (l.map (fun p => [p.1, p.2])).map idMPA := by
    rw [List.map_map]
    rfl
  rw [h, chainL_idMPA]

theorem mapM_idD_pairs (l : List (ℕ × ℕ)) :
    (l.map (fun p => (idD (p.1 * p.2), p))).mapM
      (fun p => matrix_to_mpo p.1 [[p.2.1, p.2.1], [p.2.2, p.2.2]]) =
      .ok (l.map (fun p => idMPA [p.1, p.2])) := by
  have h := mapM_ok (l.map (fun p => (idD (p.1 * p.2), p)))
    (fun p => matrix_to_mpo p.1 [[p.2.1, p.2.1], [p.2.2, p.2.2]])
    (fun x => idMPA [x.2.1, x.2.2])
    (fun x hx => by
      rcases List.mem_map.1 hx with ⟨p, _, rfl⟩
      exact matrix_to_mpo_idD_pair p)
  rw [h, List.map_map]
  rfl

theorem u_list_to_mpo_id_odd (ds : List ℕ) (h1 : ds ≠ []) (hodd : ds.length % 2 = 1) :
    _u_list_to_mpo ds
      ((pairsOf ds).map (fun p => idD (p.1 * p.2)) ++ [idD (ds.getLast h1)])
      ((pairsOf ds.tail).map (fun p => idD (p.1 * p.2))) =
      .ok (idMPA ds, idMPA ds) := by
  simp only [_u_list_to_mpo, if_pos hodd, List.getLast?_concat, List.dropLast_concat,
    zip_map_self, mapM_idD_pairs, Except.bind]
  rw [bind_ok, bind_ok]
  simp only [List.length_map, pairsOf_length, List.length_tail]
  rw [if_neg (show ¬ ds.length / 2 > (ds.length - 1) / 2 by omega),
    if_pos (show (ds.length - 1) / 2 = ds.length / 2 by omega)]
  rw [List.getLast?_eq_getLast ds h1]
  simp only [Option.getD_some]
  rw [matrix_to_mpo_single, mk_idD_single, bind_ok]
  rw [chainL_idPairs, chainL_idPairs, pairsOf_flatten_odd ds hodd,
    pairsOf_flatten_even ds.tail (by simp [List.length_tail]; omega), mpEye_one,
    chainM_idMPA, chainM_idMPA, List.dropLast_append_getLast h1]
  simp only [List.singleton_append]
  rw [headD_cons_tail ds 0 h1]
  rfl

theorem u_list_to_mpo_id_even (ds : List ℕ) (h2 : 2 ≤ ds.length)
    (heven : ds.length % 2 = 0) :
    _u_list_to_mpo ds ((pairsOf ds).map (fun p => idD (p.1 * p.2)))
      ((pairsOf ds.tail).map (fun p => idD (p.1 * p.2))) =
      .ok (idMPA ds, idMPA ds) := by
  have h1 : ds ≠ [] := by
    intro h; subst h; simp at h2
  simp only [_u_list_to_mpo, if_neg (by omega : ¬ ds.length % 2 = 1),
    zip_map_self, mapM_idD_pairs, Except.bind]
  rw [bind_ok, bind_ok]
  simp only [List.length_map, pairsOf_length, List.length_tail]
  rw [if_pos (show ds.length / 2 > (ds.length - 1) / 2 by omega)]
  rw [chainL_idPairs, chainL_idPairs, pairsOf_flatten_even ds heven,
    pairsOf_flatten_odd ds.tail (by simp [List.length_tail]; omega), mpEye_one, mpEye_one,
    chainM_idMPA, chainM_idMPA]
  rw [List.getLast?_eq_getLast ds h1]
  simp only [Option.getD_some, List.singleton_append, List.cons_append, List.nil_append]
  have htail_ne : ds.tail ≠ [] := by
    intro h
    have hl := List.length_tail ds
    rw [h] at hl
    simp at hl
    omega
  have hlast : ds.getLast h1 = ds.tail.getLast htail_ne := by
    cases ds with
    | nil => exact absurd rfl h1
    | cons a t =>
        simp only [List.tail_cons] at htail_ne ⊢
        exact List.getLast_cons htail_ne
  rw [hlast, List.dropLast_append_getLast htail_ne, headD_cons_tail ds 0 h1]
  rfl

theorem get_h_list_zeros (ds : List ℕ) (n : ℕ) (hlen : ds.length = n) :
    _get_h_list (.lists (zeroSites ds) (zeroBonds ds)) n =
      .ok (zeroSites ds, zeroBonds ds) := by
  have hcond : ¬((zeroSites ds).length ≠ n ∨ (zeroBonds ds).length ≠ n - 1) := by
    push_neg
    exact ⟨by simp [zeroSites, hlen], by rw [zeroBonds_length, hlen]⟩
  simp only [_get_h_list]
  rw [if_neg hcond]

/-- C8 : For every chain length `N ≥ 3` and every time increment `τ`,
when every site Hamiltonian and every bond Hamiltonian is the zero
matrix, the order-2 Trotter slice (the composition odd-network, then
even-network, then odd-network) equals the identity network on every
site. -/
theorem C8_zero_hamiltonian_slice_identity (ds : List ℕ) (n : ℕ) (τ : ℝ)
    (hlen : ds.length = n) (h3 : 3 ≤ n) :
    _trotter_two (.lists (zeroSites ds) (zeroBonds ds)) τ n = .ok (idMPA ds) := by
  have hne : ds ≠ [] := by
    intro h; subst h; simp at hlen; omega
  unfold _trotter_two
  rw [get_h_list_zeros ds n hlen]
  simp only [Except.bind, bind_ok]
  rcases Nat.even_or_odd ds.length with he | ho
  · rw [get_u_list_zeros_even ds τ (by omega) (Nat.even_iff.1 he)]
    simp only [bind_ok]
    rw [u_list_to_mpo_id_even ds (by omega) (Nat.even_iff.1 he), bind_ok]
    rw [dotM_idMPA_idMPA, dotM_idMPA_idMPA]
    rfl
  · rw [get_u_list_zeros_odd ds τ hne (Nat.odd_iff.1 ho)]
    simp only [bind_ok]
    rw [u_list_to_mpo_id_odd ds hne (Nat.odd_iff.1 ho), bind_ok]
    rw [dotM_idMPA_idMPA, dotM_idMPA_idMPA]
    rfl

/-- Characterization of the `_time_evolution` loop after `k` iterations,
for an arbitrary initial bookkeeping state: the recorded times are
`tau * (i + 1)` for the hit steps `i + 1 ∈ ts`, the recorded Trotter
errors are the accumulator values `trot₀ + (i + 1) * tau³`, all four
result lists grow in lockstep, and the accumulator after `k` iterations
is `trot₀ + k * tau³`. -/
theorem te_loop_spec (u : MPA) (ts : List ℤ) (tau : ℚ) (method : Method)
    (comprFn : MPA → MPA × ℚ) (init : EvolState) (k : ℕ) :
    ((List.range k).foldl (_te_step u ts tau method comprFn) init).times =
        init.times ++ ((List.range k).filter (stepHit ts)).map
          (fun i : ℕ => tau * ((i : ℚ) + 1)) ∧
    ((List.range k).foldl (_te_step u ts tau method comprFn) init).trotErrors =
        init.trotErrors ++ ((List.range k).filter (stepHit ts)).map
          (fun i : ℕ => init.trot + ((i : ℚ) + 1) * tau ^ 3) ∧
    ((List.range k).foldl (_te_step u ts tau method comprFn) init).states.length =
        init.states.length + ((List.range k).filter (stepHit ts)).length ∧
    ((List.range k).foldl (_te_step u ts tau method comprFn) init).comprErrors.length =
        init.comprErrors.length + ((List.range k).filter (stepHit ts)).length ∧
    ((List.range k).foldl (_te_step u ts tau method comprFn) init).trot =
        init.trot + k * tau ^ 3 := by
  induction k with
  | zero => simp
  | succ k ih =>
      obtain ⟨iht, ihe, ihs, ihc, iha⟩ := ih
      rw [List.range_succ]
      rw [List.foldl_append]
      simp only [List.foldl_cons, List.foldl_nil, List.filter_append]
      have hval : ((List.range k).foldl (_te_step u ts tau method comprFn) init).trot
          + tau ^ 3 = init.trot + ((k : ℚ) + 1) * tau ^ 3 := by
        rw [iha]; ring
      by_cases hk : ((k : ℤ) + 1) ∈ ts
      · have hone : List.filter (stepHit ts) [k] = [k] := by simp [stepHit, hk]
        rw [hone]
        simp only [_te_step, if_pos hk]
        refine ⟨?_, ?_, ?_, ?_, ?_⟩
        · rw [iht, List.map_append, List.append_assoc]
          rfl
        · rw [ihe, List.map_append, List.append_assoc, hval]
          rfl
        · simp only [List.length_append, List.length_cons, List.length_nil, ihs]
          omega
        · simp only [List.length_append, List.length_cons, List.length_nil, ihc]
          omega
        · rw [iha]; push_cast; ring
      · have hone : List.filter (stepHit ts) [k] = [] := by simp [stepHit, hk]
        rw [hone]
        simp only [_te_step, if_neg hk, List.append_nil]
        refine ⟨iht, ihe, ihs, ihc, ?_⟩
        rw [iha]; push_cast; ring

/-- C9 : the cumulative Trotter error estimate recorded in the evolution
trace after `k` applied steps of slice duration `tau` is `k * tau³`
(the entry recorded at step `i + 1` is `(i + 1) * tau³`), and for a
non-negative slice duration the recorded sequence is monotonically
non-decreasing. -/
theorem C9_trotter_error_accumulation (state u : MPA) (ts : List ℤ) (tau : ℚ)
    (method : Method) (comprFn : MPA → MPA × ℚ) :
    (_time_evolution state u ts tau method comprFn).2.2.2 =
      (if ts.head? = some 0 then [0] else []) ++
        ((List.range (ts.getLast?.getD 0).toNat).filter (stepHit ts)).map
          (fun i : ℕ => ((i : ℚ) + 1) * tau ^ 3) ∧
    (0 ≤ tau →
      List.Chain' (· ≤ ·) (_time_evolution state u ts tau method comprFn).2.2.2) := by
  have hchar : ∀ init : EvolState, init.trot = 0 →
      ((List.range (ts.getLast?.getD 0).toNat).foldl
        (_te_step u ts tau method comprFn) init).trotErrors =
      init.trotErrors ++ ((List.range (ts.getLast?.getD 0).toNat).filter
        (stepHit ts)).map (fun i : ℕ => ((i : ℚ) + 1) * tau ^ 3) := by
    intro init h0
    have h := (te_loop_spec u ts tau method comprFn init
      (ts.getLast?.getD 0).toNat).2.1
    rw [h, h0]
    simp
  have hfirst : (_time_evolution state u ts tau method comprFn).2.2.2 =
      (if ts.head? = some 0 then [0] else []) ++
        ((List.range (ts.getLast?.getD 0).toNat).filter (stepHit ts)).map
          (fun i : ℕ => ((i : ℚ) + 1) * tau ^ 3) := by
    unfold _time_evolution
    by_cases h0 : ts.head? = some 0
    · rw [if_pos h0]
      simp only
      rw [hchar ⟨state, [0], [state], [0], [0], 1, 0⟩ rfl, if_pos h0]
    · rw [if_neg h0]
      simp only
      rw [hchar ⟨state, [], [], [], [], 1, 0⟩ rfl, if_neg h0]
  refine ⟨hfirst, fun htau => ?_⟩
  rw [hfirst]
  apply List.Pairwise.chain'
  apply List.pairwise_append.2
  have h3 : (0 : ℚ) ≤ tau ^ 3 := by positivity
  refine ⟨?_, ?_, ?_⟩
  · by_cases h0 : ts.head? = some 0 <;> simp [h0]
  · apply List.Pairwise.map
    · intro a b hab
      have hc : ((a : ℚ) + 1) ≤ ((b : ℚ) + 1) := by
        have hcast : (a : ℚ) ≤ (b : ℚ) := by exact_mod_cast le_of_lt hab
        linarith
      exact mul_le_mul_of_nonneg_right hc h3
    · exact (List.pairwise_lt_range _).filter _
  · intro a ha b hb
    by_cases h0 : ts.head? = some 0
    · rw [if_pos h0] at ha
      simp only [List.mem_singleton] at ha
      subst ha
      rcases List.mem_map.1 hb with ⟨i, _, rfl⟩
      have hpos : (0 : ℚ) ≤ ((i : ℚ) + 1) := by positivity
      exact mul_nonneg hpos h3
    · rw [if_neg h0] at ha
      simp at ha

theorem trace_loop_state :
    traceM (dotM (dotM (idMPA [1, 1, 1]) rho2) (adjM (idMPA [1, 1, 1]))) = 2 := by
  simp [traceM, dotM, adjM, idMPA, rho2, Finset.sum_range_one]

/-- C1 : code-bug evidence.  At the concrete failing input (3-site mpo
state `rho2` of trace 2, identity propagator, one requested step), the
state snapshot recorded by the evolution loop still has trace 2: the
`_normalize(state, method)` call between the propagator application and
the compression step rebinds a local name and returns `None`, so the
state is never divided by its trace (second conjunct: the caller-visible
effect of `_normalize` is the identity), although the value the division
would have produced has trace 1 (third conjunct). -/
theorem C1_evolution_loop_state_never_normalized :
    ((_time_evolution rho2 (idMPA [1, 1, 1]) [1] 1 .mpo (fun s => (s, 1))).2.1).map traceM
        = [2] ∧
    _normalize (dotM (dotM (idMPA [1, 1, 1]) rho2) (adjM (idMPA [1, 1, 1]))) .mpo
        = dotM (dotM (idMPA [1, 1, 1]) rho2) (adjM (idMPA [1, 1, 1])) ∧
    traceM (_normalize_localValue
        (dotM (dotM (idMPA [1, 1, 1]) rho2) (adjM (idMPA [1, 1, 1]))) .mpo) = 1 ∧
    (2 : ℂ) ≠ 1 := by
  have hte : (_time_evolution rho2 (idMPA [1, 1, 1]) [1] 1 .mpo (fun s => (s, 1))).2.1 =
      [dotM (dotM (idMPA [1, 1, 1]) rho2) (adjM (idMPA [1, 1, 1]))] := by
    unfold _time_evolution
    rw [if_neg (by decide : ¬ ([1] : List ℤ).head? = some 0)]
    simp [_te_step, _normalize, List.range_succ, List.range_zero]
  have hf0 : (dotM (dotM (idMPA [1, 1, 1]) rho2) (adjM (idMPA [1, 1, 1]))).f 0 0 = 2 := by
    simp [dotM, adjM, idMPA, rho2, Finset.sum_range_one]
  have hloc : traceM (_normalize_localValue
      (dotM (dotM (idMPA [1, 1, 1]) rho2) (adjM (idMPA [1, 1, 1]))) .mpo) = 1 := by
    have hS : _normalize_localValue
        (dotM (dotM (idMPA [1, 1, 1]) rho2) (adjM (idMPA [1, 1, 1]))) .mpo =
        ⟨(dotM (dotM (idMPA [1, 1, 1]) rho2) (adjM (idMPA [1, 1, 1]))).dims,
         fun i j => (dotM (dotM (idMPA [1, 1, 1]) rho2) (adjM (idMPA [1, 1, 1]))).f i j /
           traceM (dotM (dotM (idMPA [1, 1, 1]) rho2) (adjM (idMPA [1, 1, 1])))⟩ := by
      simp [_normalize_localValue]
    rw [hS]
    simp only [traceM]
    rw [show (dotM (dotM (idMPA [1, 1, 1]) rho2) (adjM (idMPA [1, 1, 1]))).dims
        = [1, 1, 1] from rfl]
    rw [show ([1, 1, 1] : List ℕ).prod = 1 from rfl]
    rw [Finset.sum_range_one, hf0, Finset.sum_range_one, hf0]
    norm_num
  exact ⟨by rw [hte]; simp [trace_loop_state], rfl, hloc, by norm_num⟩

theorem pyRound_mono {x y : ℚ} (h : x ≤ y) : pyRound x ≤ pyRound y := by
  have hfl : ⌊x⌋ ≤ ⌊y⌋ := Int.floor_le_floor h
  rcases lt_or_eq_of_le hfl with hlt | heq
  · have h1 : pyRound x ≤ ⌊x⌋ + 1 := by
      simp only [pyRound]
      split_ifs <;> omega
    have h2 : ⌊y⌋ ≤ pyRound y := by
      simp only [pyRound]
      split_ifs <;> omega
    omega
  · have hfx : ⌊x⌋ ≤ x := Int.floor_le x
    simp only [pyRound]
    rw [← heq]
    split_ifs with c1 c2 c3 d1 d2 d3 <;>
      first
        | omega
        | (exfalso; linarith)

theorem pyRound_nonneg {q : ℚ} (h : 0 ≤ q) : 0 ≤ pyRound q := by
  have h0 : 0 ≤ ⌊q⌋ := Int.floor_nonneg.2 h
  simp only [pyRound]
  split_ifs <;> omega

/-- In a `≤`-sorted list every element is at most the last element. -/
theorem sorted_le_getLast {α : Type} [LinearOrder α] : ∀ (l : List α),
    l.Sorted (· ≤ ·) → ∀ x ∈ l, ∀ hne : l ≠ [], x ≤ l.getLast hne
  | [], _, x, hx, hne => absurd rfl hne
  | [a], _, x, hx, _ => by simp_all [List.getLast]
  | a :: b :: t, h, x, hx, hne => by
      have htail := sorted_le_getLast (b :: t) h.of_cons
      rw [List.getLast_cons (by simp)]
      rcases List.mem_cons.1 hx with rfl | hxt
      · exact le_trans (List.rel_of_sorted_cons h _ (List.getLast_mem _)) (le_refl _)
      · exact htail x hxt (by simp)

/-- The last element of the sorted copy of a non-empty list is its
maximum. -/
theorem insertionSort_getLast_max (l : List ℚ) (h : l ≠ []) :
    (l.insertionSort (· ≤ ·)).getLast?.getD 0 ∈ l ∧
      ∀ x ∈ l, x ≤ (l.insertionSort (· ≤ ·)).getLast?.getD 0 := by
  have hperm := List.perm_insertionSort (· ≤ ·) l
  have hsorted := List.sorted_insertionSort (· ≤ ·) l
  have hne : l.insertionSort (· ≤ ·) ≠ [] := by
    intro h0
    rw [h0] at hperm
    exact h hperm.symm.eq_nil
  rw [List.getLast?_eq_getLast _ hne]
  simp only [Option.getD_some]
  constructor
  · exact hperm.mem_iff.1 (List.getLast_mem hne)
  · intro x hx
    exact sorted_le_getLast _ hsorted x (hperm.mem_iff.2 hx) hne

/-- C6 : for every non-empty list of non-negative requested times with
at least one nonzero entry (and a positive slice count),
`_times_to_steps` returns `tau = max(times) / num_trotter_slices` and
the sorted list of the rounded step indices `round(t / tau)`, and the
result is indeed sorted; in particular `[0, 1, 2.5]` with 5 slices gives
`tau = 1/2` and steps `[0, 2, 5]`, after which the evolution trace has
exactly 3 entries, at physical times `0`, `1`, `5/2`. -/
theorem C6_times_to_steps_spec (times : List ℚ) (n : ℕ)
    (hne : times ≠ []) (hnn : ∀ t ∈ times, 0 ≤ t) (hsome : ∃ t ∈ times, t ≠ 0)
    (hn : 0 < n) :
    (∃ M, M ∈ times ∧ (∀ x ∈ times, x ≤ M) ∧ (_times_to_steps times n).1 = M / n) ∧
    (_times_to_steps times n).2 = (times.insertionSort (· ≤ ·)).map
      (fun t => pyRound (t / (_times_to_steps times n).1)) ∧
    List.Sorted (· ≤ ·) ((_times_to_steps times n).2 : List ℤ) ∧
    _times_to_steps [0, 1, 5/2] 5 = (1/2, [0, 2, 5]) ∧
    (∀ (state u : MPA) (method : Method) (comprFn : MPA → MPA × ℚ),
      (_time_evolution state u [0, 2, 5] (1/2) method comprFn).1 = [0, 1, 5/2] ∧
      (_time_evolution state u [0, 2, 5] (1/2) method comprFn).2.1.length = 3 ∧
      (_time_evolution state u [0, 2, 5] (1/2) method comprFn).2.2.1.length = 3 ∧
      (_time_evolution state u [0, 2, 5] (1/2) method comprFn).2.2.2.length = 3) := by
  obtain ⟨hM_mem, hM_max⟩ := insertionSort_getLast_max times hne
  have htau : (0 : ℚ) < (times.insertionSort (· ≤ ·)).getLast?.getD 0 / (n : ℚ) := by
    obtain ⟨t, ht, htne⟩ := hsome
    have htpos : 0 < t := lt_of_le_of_ne (hnn t ht) (Ne.symm htne)
    have hMpos : 0 < (times.insertionSort (· ≤ ·)).getLast?.getD 0 :=
      lt_of_lt_of_le htpos (hM_max t ht)
    have hnpos : (0 : ℚ) < (n : ℚ) := by exact_mod_cast hn
    positivity
  refine ⟨⟨(times.insertionSort (· ≤ ·)).getLast?.getD 0, hM_mem, hM_max, rfl⟩,
    rfl, ?_, ?_, ?_⟩
  · show List.Sorted (· ≤ ·) ((times.insertionSort (· ≤ ·)).map
      (fun t => pyRound (t / ((times.insertionSort (· ≤ ·)).getLast?.getD 0 / (n : ℚ)))))
    apply List.Pairwise.map
    · intro a b hab
      exact pyRound_mono ((div_le_div_iff_of_pos_right htau).2 hab)
    · exact List.sorted_insertionSort (· ≤ ·) times
  · norm_num [_times_to_steps, List.insertionSort, List.orderedInsert, pyRound]
  · intro state u method comprFn
    have h := te_loop_spec u [0, 2, 5] (1/2) method comprFn
      ⟨state, [0], [state], [0], [0], 1, 0⟩ 5
    obtain ⟨h1, h2, h3, h4, _⟩ := h
    have hfilter : (List.range 5).filter (stepHit [0, 2, 5]) = [1, 4] := by decide
    have hte : _time_evolution state u [0, 2, 5] (1/2) method comprFn =
        ((List.range 5).foldl (_te_step u [0, 2, 5] (1/2) method comprFn)
           ⟨state, [0], [state], [0], [0], 1, 0⟩ |>.times,
         (List.range 5).foldl (_te_step u [0, 2, 5] (1/2) method comprFn)
           ⟨state, [0], [state], [0], [0], 1, 0⟩ |>.states,
         (List.range 5).foldl (_te_step u [0, 2, 5] (1/2) method comprFn)
           ⟨state, [0], [state], [0], [0], 1, 0⟩ |>.comprErrors,
         (List.range 5).foldl (_te_step u [0, 2, 5] (1/2) method comprFn)
           ⟨state, [0], [state], [0], [0], 1, 0⟩ |>.trotErrors) := by
      unfold _time_evolution
      rw [if_pos (by decide : ([0, 2, 5] : List ℤ).head? = some 0)]
      rfl
    rw [hte]
    refine ⟨?_, ?_, ?_, ?_⟩
    · rw [h1, hfilter]
      norm_num
    · simp only [h3, hfilter]
      rfl
    · simp only [h4, hfilter]
      rfl
    · rw [h2, hfilter]
      simp

theorem uOddBase_length (h_single h_adjacent : List DMat) (τ : ℝ) :
    (uOddBase h_single h_adjacent τ).length =
      min ((h_adjacent.length + 1) / 2) (h_single.length / 2) := by
  simp [uOddBase, List.length_zipWith, everySecond_length, h2sitesList_length]

theorem uEvenList_length (h_adjacent : List DMat) (τ : ℝ) :
    (uEvenList h_adjacent τ).length = h_adjacent.length / 2 := by
  simp only [uEvenList, List.length_map, everySecond_length, List.length_tail]
  omega

/-- C3 (amended) : in `_get_u_list` the extra trailing operator
`expm(-1j * tau / 2 * h_single[-1])` is appended to the odd-bond list if
and only if the number of odd-bond blocks equals the number of even-bond
blocks, which for an `n`-site chain (`n ≥ 1`, `n - 1` bonds) is the case
exactly when `n` is odd. -/
theorem C3_trailing_operator_iff_odd_chain (h_single h_adjacent : List DMat) (τ : ℝ)
    (n : ℕ) (hs : h_single.length = n) (ha : h_adjacent.length = n - 1) (h1 : 1 ≤ n) :
    ((_get_u_list h_single h_adjacent τ).2.1 =
        uOddBase h_single h_adjacent τ ++
          [expD (smulD (-Complex.I * τ / 2) (h_single.getLast?.getD (zeroD 0)))] ↔
      (uOddBase h_single h_adjacent τ).length = (uEvenList h_adjacent τ).length) ∧
    ((uOddBase h_single h_adjacent τ).length = (uEvenList h_adjacent τ).length ↔
      Odd n) := by
  constructor
  · simp only [_get_u_list]
    split_ifs with hc
    · simp [hc]
    · constructor
      · intro h
        have hlen := congrArg List.length h
        simp at hlen
      · intro h
        exact absurd h hc
  · rw [uOddBase_length, uEvenList_length, hs, ha, Nat.odd_iff]
    omega

/-- C3 counterexample : at the concrete 3-site chain (site and bond
Hamiltonians all `zeroD 1`, `tau = 1`), the trailing operator IS
appended although 3 is odd, refuting the claim that it is appended
exactly when the chain has an even number of sites. -/
theorem C3_counterexample_trailing_on_three_sites :
    ¬ ((_get_u_list [zeroD 1, zeroD 1, zeroD 1] [zeroD 1, zeroD 1] 1).2.1 =
        uOddBase [zeroD 1, zeroD 1, zeroD 1] [zeroD 1, zeroD 1] 1 ++
          [expD (smulD (-Complex.I * ((1 : ℝ) : ℂ) / 2)
            (([zeroD 1, zeroD 1, zeroD 1] : List DMat).getLast?.getD (zeroD 0)))] ↔
      Even 3) := by
  intro hiff
  have happ : (_get_u_list [zeroD 1, zeroD 1, zeroD 1] [zeroD 1, zeroD 1] 1).2.1 =
      uOddBase [zeroD 1, zeroD 1, zeroD 1] [zeroD 1, zeroD 1] 1 ++
        [expD (smulD (-Complex.I * ((1 : ℝ) : ℂ) / 2)
          (([zeroD 1, zeroD 1, zeroD 1] : List DMat).getLast?.getD (zeroD 0)))] := by
    simp only [_get_u_list]
    rw [if_pos]
    rw [uOddBase_length, uEvenList_length]
    rfl
  have h3 : Even 3 := hiff.1 happ
  exact absurd h3 (by decide)

/-- C10 : the Hamiltonian normalizer dispatches solely on the input
form.  A single (site, bond) pair is expanded, for every `n`, into `n`
copies of the site operator and `n - 1` copies of the bond operator with
no length validation (the call never fails); the length check (`n` and
`n - 1`, else a `ValueError`) is performed only for the explicit-list
form. -/
theorem C10_h_list_dispatch :
    (∀ (a b : DMat) (n : ℕ),
      _get_h_list (.single a b) n =
        .ok (List.replicate n a, List.replicate (n - 1) b) ∧
      (List.replicate n a).length = n ∧ (List.replicate (n - 1) b).length = n - 1) ∧
    (∀ (hl hbl : List DMat) (n : ℕ),
      _get_h_list (.lists hl hbl) n =
        if hl.length ≠ n ∨ hbl.length ≠ n - 1 then
          .error "Number of given Hamiltonians does not match number of sites"
        else .ok (hl, hbl)) := by
  constructor
  · intro a b n
    exact ⟨rfl, by simp, by simp⟩
  · intro hl hbl n
    rfl

/-- C7 : the order-4 slice is built from the rescaled increments
`s1 = s2 = tau / (4 - 4^(1/3))` and `s3 = tau - 4 * s1`, as order-2
slices `U1` (for `s1`, used twice) and `U3` (for `s3`), composed as
`U1·U1·U3`, the intermediate product compressed, then composed with `U1`
and `U1` again: the full slice is `U1·U1·U3·U1·U1`. -/
theorem C7_trotter_four_structure (hamiltonians : HamInput) (tau : ℝ) (num_sites : ℕ) :
    _trotter_four hamiltonians tau num_sites = (do
      let u1 ← _trotter_two hamiltonians (tau / (4 - (4:ℝ) ^ ((1:ℝ) / 3))) num_sites
      let u3 ← _trotter_two hamiltonians
        (tau - 4 * tau / (4 - (4:ℝ) ^ ((1:ℝ) / 3))) num_sites
      return dotM (dotM (_compress (dotM (dotM u1 u1) u3) .mpo) u1) u1) := by
  unfold _trotter_four _trotter_two
  cases hgh : _get_h_list hamiltonians num_sites with
  | error e => simp only [bind_error]
  | ok hl =>
      simp only [bind_ok]
      set A := _get_u_list hl.1 hl.2 (tau / (4 - (4:ℝ) ^ ((1:ℝ) / 3))) with hA
      set B := _get_u_list hl.1 hl.2 (tau - 4 * tau / (4 - (4:ℝ) ^ ((1:ℝ) / 3))) with hB
      cases hu1 : _u_list_to_mpo A.1 A.2.1 A.2.2 with
      | error e => simp only [bind_error, map_error, bind_ok, map_ok]
      | ok p =>
          simp only [bind_ok, map_ok]
          cases hu3 : _u_list_to_mpo B.1 B.2.1 B.2.2 with
          | error e => simp only [bind_error, map_error, bind_ok, map_ok, bind_pure]
          | ok q => simp only [bind_ok, map_ok, bind_pure]

theorem get_h_list_lists_mismatch (hl hbl : List DMat) (ns : ℕ)
    (h : hl.length ≠ ns ∨ hbl.length ≠ ns - 1) :
    _get_h_list (.lists hl hbl) ns =
      .error "Number of given Hamiltonians does not match number of sites" := by
  simp only [_get_h_list]
  rw [if_pos h]

theorem trotter_slice_lists_mismatch (hl hbl : List DMat) (τ : ℝ) (ns ord : ℕ)
    (h : hl.length ≠ ns ∨ hbl.length ≠ ns - 1) :
    ∃ e, _trotter_slice (.lists hl hbl) τ ns ord = .error e := by
  by_cases h2 : ord = 2
  · subst h2
    refine ⟨"Number of given Hamiltonians does not match number of sites", ?_⟩
    simp only [_trotter_slice, if_pos rfl]
    unfold _trotter_two
    rw [get_h_list_lists_mismatch hl hbl ns h]
    rfl
  by_cases h4 : ord = 4
  · subst h4
    refine ⟨"Number of given Hamiltonians does not match number of sites", ?_⟩
    simp only [_trotter_slice]
    rw [if_neg (by omega), if_pos trivial]
    unfold _trotter_four
    rw [get_h_list_lists_mismatch hl hbl ns h]
    rfl
  · refine ⟨"Trotter order " ++ toString ord ++ " is currently not implemented.", ?_⟩
    simp only [_trotter_slice]
    rw [if_neg h2, if_neg h4]

theorem trotter_slice_bad_order (hams : HamInput) (τ : ℝ) (ns ord : ℕ)
    (h2 : ord ≠ 2) (h4 : ord ≠ 4) :
    _trotter_slice hams τ ns ord =
      .error ("Trotter order " ++ toString ord ++ " is currently not implemented.") := by
  simp only [_trotter_slice]
  rw [if_neg h2, if_neg h4]

/-- Reduction of `evolve` on the error path through `_trotter_slice`. -/
theorem evolve_slice_error (state : MPA) (hams : HamInput) (ts : List ℚ) (n : ℕ)
    (method : Method) (comprFn : MPA → MPA × ℚ) (ord : ℕ) (e : String)
    (h3 : 3 ≤ state.dims.length) (hz : ts.all (fun t => t = 0) = false)
    (hslice : _trotter_slice hams ((_times_to_steps ts n).1 : ℝ) state.dims.length ord =
      .error e) :
    evolve state hams ts n method comprFn ord =
      ⟨.error e, state, ((_times_to_steps ts n).2).map (fun z => (z : ℚ))⟩ := by
  unfold evolve
  simp only [_compress, _normalize, mpCompressSmall]
  rw [if_neg (by omega), if_neg (by simp [hz])]
  simp only [hslice]

/-- Reduction of `evolve` on the two early-check error paths. -/
theorem evolve_early_error (state : MPA) (hams : HamInput) (ts : List ℚ) (n : ℕ)
    (method : Method) (comprFn : MPA → MPA × ℚ) (ord : ℕ) :
    (state.dims.length < 3 →
      evolve state hams ts n method comprFn ord =
        ⟨.error "State has too few sites", state, ts⟩) ∧
    (3 ≤ state.dims.length → ts.all (fun t => t = 0) = true →
      evolve state hams ts n method comprFn ord =
        ⟨.error "No time evolution requested by the user. Check your input t",
         state, ts⟩) := by
  constructor
  · intro h
    show (if state.dims.length < 3 then _ else _) = _
    rw [if_pos h]
    rfl
  · intro h3 hz
    show (if state.dims.length < 3 then _ else _) = _
    rw [if_neg (by omega), if_pos hz]
    rfl

/-- C5 : `evolve` signals a configuration error (`ValueError`) in each
claimed case: fewer than 3 sites; every requested time zero; explicit
Hamiltonian lists of lengths other than `N` and `N - 1` (whatever the
Trotter order, some configuration error is raised); a Trotter order
other than 2 or 4; and reshaping a dense operator with inconsistent
per-site leg counts. -/
theorem C5_configuration_errors :
    (∀ (state : MPA) (hams : HamInput) (ts : List ℚ) (n : ℕ) (method : Method)
       (comprFn : MPA → MPA × ℚ) (ord : ℕ), state.dims.length < 3 →
      (evolve state hams ts n method comprFn ord).result =
        .error "State has too few sites") ∧
    (∀ (state : MPA) (hams : HamInput) (ts : List ℚ) (n : ℕ) (method : Method)
       (comprFn : MPA → MPA × ℚ) (ord : ℕ), 3 ≤ state.dims.length →
      ts.all (fun t => t = 0) = true →
      (evolve state hams ts n method comprFn ord).result =
        .error "No time evolution requested by the user. Check your input t") ∧
    (∀ (state : MPA) (hl hbl : List DMat) (ts : List ℚ) (n : ℕ) (method : Method)
       (comprFn : MPA → MPA × ℚ) (ord : ℕ), 3 ≤ state.dims.length →
      ts.all (fun t => t = 0) = false →
      (hl.length ≠ state.dims.length ∨ hbl.length ≠ state.dims.length - 1) →
      ∃ e, (evolve state (.lists hl hbl) ts n method comprFn ord).result = .error e) ∧
    (∀ (state : MPA) (hams : HamInput) (ts : List ℚ) (n : ℕ) (method : Method)
       (comprFn : MPA → MPA × ℚ) (ord : ℕ), 3 ≤ state.dims.length →
      ts.all (fun t => t = 0) = false → ord ≠ 2 → ord ≠ 4 →
      (evolve state hams ts n method comprFn ord).result =
        .error ("Trotter order " ++ toString ord ++ " is currently not implemented.")) ∧
    (∀ (m : DMat) (shape : List (List ℕ)),
      shape.all (fun s => s.length = (shape.headD []).length) = false →
      matrix_to_mpo m shape =
        .error "Not all sites have the same number of physical legs") := by
  refine ⟨?_, ?_, ?_, ?_, ?_⟩
  · intro state hams ts n method comprFn ord h
    rw [(evolve_early_error state hams ts n method comprFn ord).1 h]
  · intro state hams ts n method comprFn ord h3 hz
    rw [(evolve_early_error state hams ts n method comprFn ord).2 h3 hz]
  · intro state hl hbl ts n method comprFn ord h3 hz hmm
    obtain ⟨e, he⟩ := trotter_slice_lists_mismatch hl hbl
      ((_times_to_steps ts n).1 : ℝ) state.dims.length ord hmm
    exact ⟨e, by
      rw [evolve_slice_error state (.lists hl hbl) ts n method comprFn ord e h3 hz he]⟩
  · intro state hams ts n method comprFn ord h3 hz h2 h4
    rw [evolve_slice_error state hams ts n method comprFn ord _ h3 hz
      (trotter_slice_bad_order hams ((_times_to_steps ts n).1 : ℝ)
        state.dims.length ord h2 h4)]
  · intro m shape h
    have hcond : ¬ ((shape.all fun s => s.length = (shape.headD []).length) = true) := by
      rw [h]
      simp
    simp only [matrix_to_mpo]
    rw [if_neg hcond]

/-- C2 (amended) : for the fewer-than-3-sites and all-zero-times
configuration errors, `evolve` fails before any propagator construction
and with the caller's times list and the caller's state unchanged; for
the errors raised inside slice construction (mismatched explicit
Hamiltonian list lengths, unsupported Trotter order), `evolve` fails
before any propagator network is built, but only after the caller's
times list has already been replaced in place by the sorted step indices
produced by `_times_to_steps` (the state is still unchanged). -/
theorem C2_error_paths_and_caller_data (state : MPA) (hams : HamInput) (ts : List ℚ)
    (n : ℕ) (method : Method) (comprFn : MPA → MPA × ℚ) (ord : ℕ) :
    (state.dims.length < 3 ∨
        (3 ≤ state.dims.length ∧ ts.all (fun t => t = 0) = true) →
      (∃ e, (evolve state hams ts n method comprFn ord).result = .error e) ∧
      (evolve state hams ts n method comprFn ord).tsAfter = ts ∧
      (evolve state hams ts n method comprFn ord).stateAfter = state) ∧
    (∀ e, 3 ≤ state.dims.length → ts.all (fun t => t = 0) = false →
      _trotter_slice hams ((_times_to_steps ts n).1 : ℝ) state.dims.length ord =
        .error e →
      (evolve state hams ts n method comprFn ord).result = .error e ∧
      (evolve state hams ts n method comprFn ord).tsAfter =
        ((_times_to_steps ts n).2).map (fun z => (z : ℚ)) ∧
      (evolve state hams ts n method comprFn ord).stateAfter = state) := by
  constructor
  · intro h
    rcases h with h | ⟨h3, hz⟩
    · rw [(evolve_early_error state hams ts n method comprFn ord).1 h]
      exact ⟨⟨_, rfl⟩, rfl, rfl⟩
    · rw [(evolve_early_error state hams ts n method comprFn ord).2 h3 hz]
      exact ⟨⟨_, rfl⟩, rfl, rfl⟩
  · intro e h3 hz hslice
    rw [evolve_slice_error state hams ts n method comprFn ord e h3 hz hslice]
    exact ⟨rfl, rfl, rfl⟩

/-- C2 counterexample : the concrete call
`evolve(idMPA [1,1,1], single-pair zeros, ts=[1,3], 2 slices, mpo,
trotter_order=3)` fails with a configuration error (unsupported Trotter
order), yet the caller's times list has already been converted in place
from `[1, 3]` to the step indices `[1, 2]`: caller-owned data is mutated
before the error is signalled. -/
theorem C2_counterexample_times_mutated_before_error :
    (∃ e, (evolve (idMPA [1, 1, 1]) (.single (zeroD 1) (zeroD 1)) [1, 3] 2 .mpo
      (fun s => (s, 1)) 3).result = .error e) ∧
    (evolve (idMPA [1, 1, 1]) (.single (zeroD 1) (zeroD 1)) [1, 3] 2 .mpo
      (fun s => (s, 1)) 3).tsAfter = [1, 2] ∧
    ([1, 2] : List ℚ) ≠ [1, 3] := by
  have hsteps : _times_to_steps [1, 3] 2 = (3/2, [1, 2]) := by
    norm_num [_times_to_steps, List.insertionSort, List.orderedInsert, pyRound,
      Int.even_add_one]
    rw [show Int.fract ((2:ℚ)/3) = 2/3 from by norm_num [Int.fract]]
    norm_num
  have hev : evolve (idMPA [1, 1, 1]) (.single (zeroD 1) (zeroD 1)) [1, 3] 2 .mpo
      (fun s => (s, 1)) 3 =
      ⟨.error ("Trotter order " ++ toString 3 ++ " is currently not implemented."),
       idMPA [1, 1, 1], ((_times_to_steps [1, 3] 2).2).map (fun z => (z : ℚ))⟩ :=
    evolve_slice_error _ _ _ _ _ _ _ _ (by simp [idMPA]) (by decide)
      (trotter_slice_bad_order _ _ _ _ (by omega) (by omega))
  rw [hev]
  refine ⟨⟨_, rfl⟩, ?_, by simp⟩
  rw [hsteps]
  norm_num

theorem get_h_list_ok (hams : HamInput) (ns : ℕ) (h : HamOk hams ns) :
    ∃ hl : List DMat × List DMat, _get_h_list hams ns = .ok hl ∧
      hl.1.length = ns ∧ hl.2.length = ns - 1 := by
  cases hams with
  | single a b =>
      exact ⟨(List.replicate ns a, List.replicate (ns - 1) b), rfl, by simp, by simp⟩
  | lists l1 l2 =>
      obtain ⟨h1, h2⟩ := h
      refine ⟨(l1, l2), ?_, h1, h2⟩
      simp only [_get_h_list]
      rw [if_neg (by push_neg; exact ⟨h1, h2⟩)]

/-- All the two-site reshapes of `_u_list_to_mpo` succeed. -/
theorem mapM_pairShape (l : List (DMat × (ℕ × ℕ))) :
    l.mapM (fun p => matrix_to_mpo p.1 [[p.2.1, p.2.1], [p.2.2, p.2.2]]) =
      .ok (l.map (fun p => (⟨[p.2.1, p.2.2], p.1.f⟩ : MPA))) :=
  mapM_ok _ _ _ (fun x _ => matrix_to_mpo_pair x.1 x.2.1 x.2.2)

/-- `_u_list_to_mpo` succeeds whenever the odd/even list lengths have
the shape produced by `_get_u_list` on a wellformed chain. -/
theorem u_list_to_mpo_ok (dims : List ℕ) (u_odd0 u_even : List DMat)
    (hcase : (dims.length % 2 = 1 ∧ u_odd0 ≠ [] ∧
        u_odd0.length - 1 = u_even.length) ∨
      (dims.length % 2 = 0 ∧ u_odd0.length > u_even.length)) :
    ∃ oe, _u_list_to_mpo dims u_odd0 u_even = .ok oe := by
  rcases hcase with ⟨hodd, hne, hlen⟩ | ⟨heven, hlen⟩
  · simp only [_u_list_to_mpo, if_pos hodd, mapM_pairShape, Except.bind]
    rw [bind_ok, bind_ok]
    rw [if_neg (show ¬ u_odd0.dropLast.length > u_even.length by
        rw [List.length_dropLast]; omega),
      if_pos (show u_even.length = u_odd0.dropLast.length by
        rw [List.length_dropLast]; omega)]
    rw [List.getLast?_eq_getLast _ hne]
    simp only [matrix_to_mpo_single, bind_ok]
    exact ⟨_, rfl⟩
  · simp only [_u_list_to_mpo, if_neg (show ¬ dims.length % 2 = 1 by omega),
      mapM_pairShape, Except.bind]
    rw [bind_ok, bind_ok]
    rw [if_pos hlen]
    exact ⟨_, rfl⟩

/-- The odd/even operator lists produced by `_get_u_list` on a
wellformed chain have the length shape `_u_list_to_mpo` needs. -/
theorem get_u_list_shape (hl1 hl2 : List DMat) (τ : ℝ) (ns : ℕ)
    (h1 : hl1.length = ns) (h2 : hl2.length = ns - 1) (h3 : 1 ≤ ns) :
    (_get_u_list hl1 hl2 τ).1.length = ns ∧
    ((ns % 2 = 1 ∧ (_get_u_list hl1 hl2 τ).2.1 ≠ [] ∧
        (_get_u_list hl1 hl2 τ).2.1.length - 1 = (_get_u_list hl1 hl2 τ).2.2.length) ∨
      (ns % 2 = 0 ∧
        (_get_u_list hl1 hl2 τ).2.1.length > (_get_u_list hl1 hl2 τ).2.2.length)) := by
  have hbase := uOddBase_length hl1 hl2 τ
  have heven := uEvenList_length hl2 τ
  rw [h2] at hbase heven
  rw [h1] at hbase
  have hmin : (ns - 1 + 1) / 2 ⊓ ns / 2 = ns / 2 := by
    have hns : ns - 1 + 1 = ns := by omega
    rw [hns, Nat.min_self]
  rw [hmin] at hbase
  simp only [_get_u_list]
  split_ifs with hc
  · rw [hbase, heven] at hc
    refine ⟨by simp [h1], Or.inl ⟨by omega, by simp, ?_⟩⟩
    simp only [List.length_append, List.length_cons, List.length_nil, hbase, heven]
    omega
  · rw [hbase, heven] at hc
    refine ⟨by simp [h1], Or.inr ⟨by omega, ?_⟩⟩
    simp only [hbase, heven]
    omega

/-- Slice construction succeeds for wellformed Hamiltonians, chains of
at least one site and a supported Trotter order. -/
theorem trotter_slice_ok (hams : HamInput) (τ : ℝ) (ns ord : ℕ)
    (hham : HamOk hams ns) (h1 : 1 ≤ ns) (hord : ord = 2 ∨ ord = 4) :
    ∃ u, _trotter_slice hams τ ns ord = .ok u := by
  obtain ⟨hl, hgl, hlen1, hlen2⟩ := get_h_list_ok hams ns hham
  have htwo : ∀ t : ℝ, ∃ u, _trotter_two hams t ns = .ok u := by
    intro t
    obtain ⟨hd, hshape⟩ := get_u_list_shape hl.1 hl.2 t ns hlen1 hlen2 h1
    obtain ⟨oe, hoe⟩ := u_list_to_mpo_ok _ _ _ (by
      rcases hshape with ⟨ha, hb, hc⟩ | ⟨ha, hb⟩
      · exact Or.inl ⟨by rw [hd]; exact ha, hb, hc⟩
      · exact Or.inr ⟨by rw [hd]; exact ha, hb⟩)
    unfold _trotter_two
    rw [hgl]
    simp only [bind_ok, hoe]
    exact ⟨_, rfl⟩
  rcases hord with rfl | rfl
  · unfold _trotter_slice
    rw [if_pos rfl]
    exact htwo τ
  · unfold _trotter_slice
    rw [if_neg (by omega : ¬ (4 : ℕ) = 2), if_pos rfl]
    obtain ⟨hd1, hshape1⟩ := get_u_list_shape hl.1 hl.2
      (τ / (4 - (4:ℝ) ^ ((1:ℝ) / 3))) ns hlen1 hlen2 h1
    obtain ⟨hd3, hshape3⟩ := get_u_list_shape hl.1 hl.2
      (τ - 4 * τ / (4 - (4:ℝ) ^ ((1:ℝ) / 3))) ns hlen1 hlen2 h1
    obtain ⟨oe1, hoe1⟩ := u_list_to_mpo_ok _ _ _ (by
      rcases hshape1 with ⟨ha, hb, hc⟩ | ⟨ha, hb⟩
      · exact Or.inl ⟨by rw [hd1]; exact ha, hb, hc⟩
      · exact Or.inr ⟨by rw [hd1]; exact ha, hb⟩)
    obtain ⟨oe3, hoe3⟩ := u_list_to_mpo_ok _ _ _ (by
      rcases hshape3 with ⟨ha, hb, hc⟩ | ⟨ha, hb⟩
      · exact Or.inl ⟨by rw [hd3]; exact ha, hb, hc⟩
      · exact Or.inr ⟨by rw [hd3]; exact ha, hb⟩)
    unfold _trotter_four
    rw [hgl]
    simp only [bind_ok, hoe1, hoe3]
    exact ⟨_, rfl⟩

/-- Reduction of `evolve` on the success path. -/
theorem evolve_ok (state : MPA) (hams : HamInput) (ts : List ℚ) (n : ℕ)
    (method : Method) (comprFn : MPA → MPA × ℚ) (ord : ℕ)
    (h3 : 3 ≤ state.dims.length) (hz : ts.all (fun t => t = 0) = false)
    (hham : HamOk hams state.dims.length) (hord : ord = 2 ∨ ord = 4) :
    ∃ u, evolve state hams ts n method comprFn ord =
      ⟨.ok (_time_evolution state u (_times_to_steps ts n).2
        (_times_to_steps ts n).1 method comprFn), state,
       ((_times_to_steps ts n).2).map (fun z => (z : ℚ))⟩ := by
  obtain ⟨u, hu⟩ := trotter_slice_ok hams ((_times_to_steps ts n).1 : ℝ)
    state.dims.length ord hham (by omega) hord
  refine ⟨u, ?_⟩
  unfold evolve
  simp only [_compress, _normalize, mpCompressSmall]
  rw [if_neg (by omega), if_neg (by simp [hz])]
  simp only [hu]

theorem head?_zero_iff (S : List ℤ) (hS : S ≠ []) (hsort : S.Sorted (· ≤ ·))
    (hnn : ∀ s ∈ S, 0 ≤ s) : S.head? = some 0 ↔ (0 : ℤ) ∈ S := by
  cases S with
  | nil => exact absurd rfl hS
  | cons a t =>
      simp only [List.head?_cons, Option.some.injEq]
      constructor
      · rintro rfl
        exact List.mem_cons_self _ _
      · intro h0
        rcases List.mem_cons.1 h0 with h | h
        · omega
        · have hle : a ≤ 0 := List.rel_of_sorted_cons hsort 0 h
          have hge : 0 ≤ a := hnn a (List.mem_cons_self _ _)
          omega

/-- Counting the loop iterations that record a snapshot: together with
the possible `t = 0` entry there is exactly one snapshot per distinct
requested step. -/
theorem hit_count (S : List ℤ) (hS : S ≠ []) (hsort : S.Sorted (· ≤ ·))
    (hnn : ∀ s ∈ S, 0 ≤ s) :
    (if S.head? = some 0 then 1 else 0) +
      ((List.range (S.getLast?.getD 0).toNat).filter (stepHit S)).length =
    S.dedup.length := by
  have hMlast : S.getLast?.getD 0 = S.getLast hS := by
    rw [List.getLast?_eq_getLast S hS]
    rfl
  have hMmax : ∀ s ∈ S, s ≤ S.getLast?.getD 0 := by
    intro s hs
    rw [hMlast]
    exact sorted_le_getLast S hsort s hs hS
  have hM0 : 0 ≤ S.getLast?.getD 0 := by
    rw [hMlast]
    exact hnn _ (List.getLast_mem hS)
  have hbridge : ((List.range (S.getLast?.getD 0).toNat).filter (stepHit S)).length =
      ((Finset.range (S.getLast?.getD 0).toNat).filter
        (fun i : ℕ => ((i : ℤ) + 1) ∈ S)).card := rfl
  have hdedup : S.dedup.length = S.toFinset.card := (List.card_toFinset S).symm
  rw [hbridge, hdedup]
  have hsplit : S.toFinset.card =
      (S.toFinset.filter (fun s => 0 < s)).card +
        (S.toFinset.filter (fun s => ¬ 0 < s)).card :=
    (Finset.filter_card_add_filter_neg_card_eq_card (fun s => 0 < s)).symm
  have hzero : (S.toFinset.filter (fun s => ¬ 0 < s)).card =
      (if S.head? = some 0 then 1 else 0) := by
    by_cases h0 : (0 : ℤ) ∈ S
    · rw [if_pos ((head?_zero_iff S hS hsort hnn).2 h0)]
      have hset : S.toFinset.filter (fun s => ¬ 0 < s) = {0} := by
        ext s
        simp only [Finset.mem_filter, List.mem_toFinset, Finset.mem_singleton]
        constructor
        · rintro ⟨hs, hpos⟩
          have := hnn s hs
          omega
        · rintro rfl
          exact ⟨h0, by omega⟩
      rw [hset]
      rfl
    · rw [if_neg (fun hcon => h0 ((head?_zero_iff S hS hsort hnn).1 hcon))]
      have hset : S.toFinset.filter (fun s => ¬ 0 < s) = ∅ := by
        ext s
        simp only [Finset.mem_filter, List.mem_toFinset, Finset.not_mem_empty, iff_false,
          not_and]
        intro hs hpos
        have := hnn s hs
        have hs0 : s = 0 := by omega
        exact h0 (hs0 ▸ hs)
      rw [hset]
      rfl
  have hposcard : ((Finset.range (S.getLast?.getD 0).toNat).filter
      (fun i : ℕ => ((i : ℤ) + 1) ∈ S)).card =
      (S.toFinset.filter (fun s => 0 < s)).card := by
    apply Finset.card_bij' (fun (i : ℕ) _ => (i : ℤ) + 1) (fun (s : ℤ) _ => (s - 1).toNat)
    · intro i hi
      simp only [Finset.mem_filter, Finset.mem_range] at hi
      simp only [Finset.mem_filter, List.mem_toFinset]
      exact ⟨hi.2, by omega⟩
    · intro s hs
      simp only [Finset.mem_filter, List.mem_toFinset] at hs
      simp only [Finset.mem_filter, Finset.mem_range]
      have hsM : s ≤ S.getLast?.getD 0 := hMmax s hs.1
      constructor
      · omega
      · have : ((s - 1).toNat : ℤ) + 1 = s := by omega
        rw [this]
        exact hs.1
    · intro i hi
      omega
    · intro s hs
      simp only [Finset.mem_filter, List.mem_toFinset] at hs
      omega
  rw [hposcard, hsplit, hzero]
  omega

/-- Shape of the four components returned by `_time_evolution`, read off
from the loop characterization `te_loop_spec` in both initial-snapshot
cases. -/
theorem time_evolution_spec (state u : MPA) (S : List ℤ) (tau : ℚ)
    (method : Method) (comprFn : MPA → MPA × ℚ) :
    (_time_evolution state u S tau method comprFn).1 =
      (if S.head? = some 0 then [(0 : ℚ)] else []) ++
        ((List.range (S.getLast?.getD 0).toNat).filter (stepHit S)).map
          (fun i : ℕ => tau * ((i : ℚ) + 1)) ∧
    (_time_evolution state u S tau method comprFn).2.1.length =
      (if S.head? = some 0 then 1 else 0) +
        ((List.range (S.getLast?.getD 0).toNat).filter (stepHit S)).length ∧
    (_time_evolution state u S tau method comprFn).2.2.1.length =
      (if S.head? = some 0 then 1 else 0) +
        ((List.range (S.getLast?.getD 0).toNat).filter (stepHit S)).length ∧
    (_time_evolution state u S tau method comprFn).2.2.2.length =
      (if S.head? = some 0 then 1 else 0) +
        ((List.range (S.getLast?.getD 0).toNat).filter (stepHit S)).length := by
  by_cases hhead : S.head? = some 0
  · obtain ⟨h1, h2, h3, h4, -⟩ := te_loop_spec u S tau method comprFn
      ⟨state, [0], [state], [0], [0], 1, 0⟩ (S.getLast?.getD 0).toNat
    simp only [_time_evolution, if_pos hhead]
    refine ⟨by simpa using h1, ?_, ?_, ?_⟩
    · rw [h3]
      simp only [List.length_cons, List.length_nil]
    · rw [h4]
      simp only [List.length_cons, List.length_nil]
    · rw [h2]
      simp only [List.length_append, List.length_map, List.length_cons, List.length_nil]
  · obtain ⟨h1, h2, h3, h4, -⟩ := te_loop_spec u S tau method comprFn
      ⟨state, [], [], [], [], 1, 0⟩ (S.getLast?.getD 0).toNat
    simp only [_time_evolution, if_neg hhead]
    refine ⟨by simpa using h1, ?_, ?_, ?_⟩
    · rw [h3]
      simp only [List.length_nil]
    · rw [h4]
      simp only [List.length_nil]
    · rw [h2]
      simp only [List.length_append, List.length_map, List.length_nil]

/-- For a sorted, non-negative, non-empty step list and a positive slice
duration, the four components of `_time_evolution` are parallel lists,
the recorded times are strictly increasing with one entry per distinct
step, and a requested step 0 puts time 0 at the head. -/
theorem time_evolution_trace_shape (state u : MPA) (S : List ℤ) (tau : ℚ)
    (method : Method) (comprFn : MPA → MPA × ℚ)
    (hS_ne : S ≠ []) (hS_sorted : S.Sorted (· ≤ ·)) (hS_nonneg : ∀ s ∈ S, 0 ≤ s)
    (htau_pos : 0 < tau) :
    (_time_evolution state u S tau method comprFn).2.1.length =
        (_time_evolution state u S tau method comprFn).1.length ∧
    (_time_evolution state u S tau method comprFn).2.2.1.length =
        (_time_evolution state u S tau method comprFn).1.length ∧
    (_time_evolution state u S tau method comprFn).2.2.2.length =
        (_time_evolution state u S tau method comprFn).1.length ∧
    (_time_evolution state u S tau method comprFn).1.length = S.dedup.length ∧
    (_time_evolution state u S tau method comprFn).1.Chain' (· < ·) ∧
    ((0 : ℤ) ∈ S → (_time_evolution state u S tau method comprFn).1.head? = some 0) := by
  obtain ⟨ht_eq, hst, hce, hte⟩ := time_evolution_spec state u S tau method comprFn
  have htimes_len : (_time_evolution state u S tau method comprFn).1.length =
      (if S.head? = some 0 then 1 else 0) +
        ((List.range (S.getLast?.getD 0).toNat).filter (stepHit S)).length := by
    rw [ht_eq]
    by_cases hhead : S.head? = some 0
    · rw [if_pos hhead, if_pos hhead]
      simp only [List.length_append, List.length_map, List.length_cons, List.length_nil]
    · rw [if_neg hhead, if_neg hhead]
      simp only [List.length_append, List.length_map, List.length_nil]
  refine ⟨?_, ?_, ?_, ?_, ?_, ?_⟩
  · rw [hst, htimes_len]
  · rw [hce, htimes_len]
  · rw [hte, htimes_len]
  · rw [htimes_len]
    exact hit_count S hS_ne hS_sorted hS_nonneg
  · rw [ht_eq]
    have hmap : (((List.range (S.getLast?.getD 0).toNat).filter (stepHit S)).map
        (fun i : ℕ => tau * ((i : ℚ) + 1))).Pairwise (· < ·) :=
      ((List.pairwise_lt_range _).filter _).map _
        (fun a b hab => by
          have h1 : (a : ℚ) + 1 < (b : ℚ) + 1 := by
            exact_mod_cast Nat.add_lt_add_right hab 1
          exact mul_lt_mul_of_pos_left h1 htau_pos)
    by_cases hhead : S.head? = some 0
    · rw [if_pos hhead]
      refine (List.pairwise_append.2 ⟨List.pairwise_singleton _ _, hmap, ?_⟩).chain'
      intro a ha b hb
      obtain ⟨i, hi, rfl⟩ := List.mem_map.1 hb
      have ha0 : a = 0 := List.mem_singleton.1 ha
      rw [ha0]
      positivity
    · rw [if_neg hhead, List.nil_append]
      exact hmap.chain'
  · intro h0
    have hhead : S.head? = some 0 := (head?_zero_iff S hS_ne hS_sorted hS_nonneg).2 h0
    rw [ht_eq, if_pos hhead]
    rfl

/-- C4 (amended) : for every valid call to `evolve` (at least 3 sites,
not all requested times zero, non-negative times, a positive number of
Trotter slices, wellformed Hamiltonians, Trotter order 2 or 4) the four
returned sequences are parallel and of equal length, are in strictly
increasing time order, and contain an entry at time 0 whenever 0 is
among the requested times; the number of entries is the number of
DISTINCT requested step indices (duplicate requested times - or distinct
times that round to the same step - are recorded only once, contrary to
the claim's "one entry per requested time, also when the same time is
requested more than once"). -/
theorem C4_trace_shape (state : MPA) (hams : HamInput) (ts : List ℚ) (n : ℕ)
    (method : Method) (comprFn : MPA → MPA × ℚ) (ord : ℕ)
    (h3 : 3 ≤ state.dims.length) (hz : ts.all (fun t => t = 0) = false)
    (hnn : ∀ t ∈ ts, 0 ≤ t) (hn : 0 < n)
    (hham : HamOk hams state.dims.length) (hord : ord = 2 ∨ ord = 4) :
    ∃ times states ce te,
      (evolve state hams ts n method comprFn ord).result = .ok (times, states, ce, te) ∧
      states.length = times.length ∧ ce.length = times.length ∧
      te.length = times.length ∧
      times.length = ((_times_to_steps ts n).2).dedup.length ∧
      times.Chain' (· < ·) ∧ ((0 : ℚ) ∈ ts → times.head? = some 0) := by
  obtain ⟨u, hev⟩ := evolve_ok state hams ts n method comprFn ord h3 hz hham hord
  have hts_ne : ts ≠ [] := by
    intro h0
    rw [h0] at hz
    simp at hz
  have hperm := List.perm_insertionSort (· ≤ ·) ts
  have hsorted_ts := List.sorted_insertionSort (· ≤ ·) ts
  have hmax := insertionSort_getLast_max ts hts_ne
  obtain ⟨t0, ht0m, ht0⟩ : ∃ t0 ∈ ts, ¬ t0 = 0 := by
    by_contra hcon
    push_neg at hcon
    have hall : ts.all (fun t => t = 0) = true := by
      rw [List.all_eq_true]
      intro t htm
      simpa using hcon t htm
    rw [hall] at hz
    simp at hz
  have htau_pos : 0 < (_times_to_steps ts n).1 := by
    simp only [_times_to_steps]
    apply div_pos
    · exact lt_of_lt_of_le (lt_of_le_of_ne (hnn t0 ht0m) (fun h => ht0 h.symm))
        (hmax.2 t0 ht0m)
    · exact_mod_cast hn
  have hS_eq : (_times_to_steps ts n).2 =
      (ts.insertionSort (· ≤ ·)).map (fun t => pyRound (t / (_times_to_steps ts n).1)) := by
    simp only [_times_to_steps]
  have hsort_ne : ts.insertionSort (· ≤ ·) ≠ [] := by
    intro h0
    have hp := List.perm_insertionSort (· ≤ ·) ts
    rw [h0] at hp
    exact hts_ne hp.symm.eq_nil
  have hS_ne : (_times_to_steps ts n).2 ≠ [] := by
    rw [hS_eq]
    intro h0
    exact hsort_ne (List.map_eq_nil_iff.1 h0)
  have hS_sorted : (_times_to_steps ts n).2.Sorted (· ≤ ·) := by
    rw [hS_eq]
    exact List.Pairwise.map _
      (fun a b hab => pyRound_mono ((div_le_div_iff_of_pos_right htau_pos).2 hab)) hsorted_ts
  have hS_nonneg : ∀ s ∈ (_times_to_steps ts n).2, 0 ≤ s := by
    rw [hS_eq]
    intro s hs
    obtain ⟨t, htm, rfl⟩ := List.mem_map.1 hs
    exact pyRound_nonneg (div_nonneg (hnn t (hperm.mem_iff.1 htm)) (le_of_lt htau_pos))
  have hzero_mem : (0 : ℚ) ∈ ts → (0 : ℤ) ∈ (_times_to_steps ts n).2 := by
    intro h0
    rw [hS_eq]
    refine List.mem_map.2 ⟨0, hperm.mem_iff.2 h0, ?_⟩
    rw [zero_div]
    norm_num [pyRound, Int.floor_zero]
  obtain ⟨hst, hce, hte, hdedup, hchain, hhead0⟩ :=
    time_evolution_trace_shape state u (_times_to_steps ts n).2 (_times_to_steps ts n).1
      method comprFn hS_ne hS_sorted hS_nonneg htau_pos
  refine ⟨(_time_evolution state u (_times_to_steps ts n).2 (_times_to_steps ts n).1
      method comprFn).1,
    (_time_evolution state u (_times_to_steps ts n).2 (_times_to_steps ts n).1
      method comprFn).2.1,
    (_time_evolution state u (_times_to_steps ts n).2 (_times_to_steps ts n).1
      method comprFn).2.2.1,
    (_time_evolution state u (_times_to_steps ts n).2 (_times_to_steps ts n).1
      method comprFn).2.2.2,
    ?_, hst, hce, hte, hdedup, hchain, ?_⟩
  · rw [hev]
  · intro h0
    exact hhead0 (hzero_mem h0)

/-- C4 counterexample : requesting the same time twice (`ts = [1, 1]`
with one Trotter slice) yields a single trace entry where the claim's
"one entry per requested time (also when the same time is requested more
than once)" demands two. -/
theorem C4_counterexample_duplicate_times :
    ∃ times states ce te,
      (evolve (idMPA [1, 1, 1]) (HamInput.single (zeroD 1) (zeroD 1)) [1, 1] 1 .mpo
          (fun s => (s, 1)) 2).result = .ok (times, states, ce, te) ∧
      times.length = 1 ∧ ([1, 1] : List ℚ).length = 2 := by
  obtain ⟨u, hev⟩ := evolve_ok (idMPA [1, 1, 1]) (HamInput.single (zeroD 1) (zeroD 1))
    [1, 1] 1 .mpo (fun s => (s, 1)) 2 (by decide) (by decide) trivial (Or.inl rfl)
  have hsteps : _times_to_steps [1, 1] 1 = (1, [1, 1]) := by
    norm_num [_times_to_steps, List.insertionSort, List.orderedInsert, pyRound]
  simp only [hsteps] at hev
  obtain ⟨ht_eq, -, -, -⟩ :=
    time_evolution_spec (idMPA [1, 1, 1]) u [1, 1] 1 .mpo (fun s => (s, 1))
  have hlen : (_time_evolution (idMPA [1, 1, 1]) u [1, 1] 1 .mpo
      (fun s => (s, 1))).1.length = 1 := by
    rw [ht_eq]
    rfl
  refine ⟨(_time_evolution (idMPA [1, 1, 1]) u [1, 1] 1 .mpo (fun s => (s, 1))).1,
    (_time_evolution (idMPA [1, 1, 1]) u [1, 1] 1 .mpo (fun s => (s, 1))).2.1,
    (_time_evolution (idMPA [1, 1, 1]) u [1, 1] 1 .mpo (fun s => (s, 1))).2.2.1,
    (_time_evolution (idMPA [1, 1, 1]) u [1, 1] 1 .mpo (fun s => (s, 1))).2.2.2,
    ?_, hlen, rfl⟩
  rw [hev]

/-- Witness for C8 at the concrete chain `[2, 2, 2]`, `τ = 1`. -/
theorem C8_zero_hamiltonian_slice_identity_witness :
    ([2, 2, 2] : List ℕ).length = 3 ∧ 3 ≤ 3 ∧
    _trotter_two (.lists (zeroSites [2, 2, 2]) (zeroBonds [2, 2, 2])) 1 3 =
      .ok (idMPA [2, 2, 2]) :=
  ⟨rfl, by decide, C8_zero_hamiltonian_slice_identity [2, 2, 2] 3 1 rfl (by decide)⟩

/-- Witness for C9 at a concrete instance, discharging the `0 ≤ tau`
hypothesis of the monotonicity part at `tau = 1`. -/
theorem C9_trotter_error_accumulation_witness :
    (0 : ℚ) ≤ 1 ∧
    List.Chain' (· ≤ ·)
      (_time_evolution (idMPA [1, 1, 1]) (idMPA [1, 1, 1]) [1] 1 .mpo
        (fun s => (s, 1))).2.2.2 :=
  ⟨zero_le_one,
   (C9_trotter_error_accumulation (idMPA [1, 1, 1]) (idMPA [1, 1, 1]) [1] 1 .mpo
     (fun s => (s, 1))).2 zero_le_one⟩

/-- Witness for C6 at the concrete input `[0, 1, 5/2]`, 5 slices. -/
theorem C6_times_to_steps_spec_witness :
    ([0, 1, 5/2] : List ℚ) ≠ [] ∧ (∀ t ∈ ([0, 1, 5/2] : List ℚ), 0 ≤ t) ∧
    (∃ t ∈ ([0, 1, 5/2] : List ℚ), t ≠ 0) ∧ 0 < 5 ∧
    _times_to_steps [0, 1, 5/2] 5 = (1/2, [0, 2, 5]) :=
  ⟨by simp, by norm_num [List.forall_mem_cons], ⟨1, by simp, one_ne_zero⟩, by decide,
   (C6_times_to_steps_spec [0, 1, 5/2] 5 (by simp)
     (by norm_num [List.forall_mem_cons]) ⟨1, by simp, one_ne_zero⟩
     (by decide)).2.2.2.1⟩

/-- Witness for C3 at the concrete 3-site chain. -/
theorem C3_trailing_operator_iff_odd_chain_witness :
    ([zeroD 1, zeroD 1, zeroD 1] : List DMat).length = 3 ∧
    ([zeroD 1, zeroD 1] : List DMat).length = 3 - 1 ∧ 1 ≤ 3 ∧
    ((uOddBase [zeroD 1, zeroD 1, zeroD 1] [zeroD 1, zeroD 1] 1).length =
        (uEvenList [zeroD 1, zeroD 1] 1).length ↔ Odd 3) :=
  ⟨rfl, rfl, by decide,
   (C3_trailing_operator_iff_odd_chain [zeroD 1, zeroD 1, zeroD 1] [zeroD 1, zeroD 1]
     1 3 rfl rfl (by decide)).2⟩

/-- Witness for C5: one concrete instance per claimed error case. -/
theorem C5_configuration_errors_witness :
    (idMPA [1, 1]).dims.length < 3 ∧
    (evolve (idMPA [1, 1]) (HamInput.single (zeroD 1) (zeroD 1)) [1] 1 .mpo
        (fun s => (s, 1)) 2).result = .error "State has too few sites" ∧
    ([0, 0] : List ℚ).all (fun t => t = 0) = true ∧
    (evolve (idMPA [1, 1, 1]) (HamInput.single (zeroD 1) (zeroD 1)) [0, 0] 1 .mpo
        (fun s => (s, 1)) 2).result =
      .error "No time evolution requested by the user. Check your input t" ∧
    (∃ e, (evolve (idMPA [1, 1, 1]) (.lists [zeroD 1] [zeroD 1]) [1] 1 .mpo
        (fun s => (s, 1)) 2).result = .error e) ∧
    (evolve (idMPA [1, 1, 1]) (HamInput.single (zeroD 1) (zeroD 1)) [1] 1 .mpo
        (fun s => (s, 1)) 3).result =
      .error ("Trotter order " ++ toString 3 ++ " is currently not implemented.") ∧
    matrix_to_mpo (zeroD 1) [[1, 1], [1, 1, 1]] =
      .error "Not all sites have the same number of physical legs" :=
  ⟨by decide,
   C5_configuration_errors.1 (idMPA [1, 1]) (HamInput.single (zeroD 1) (zeroD 1)) [1] 1
     .mpo (fun s => (s, 1)) 2 (by decide),
   by decide,
   C5_configuration_errors.2.1 (idMPA [1, 1, 1]) (HamInput.single (zeroD 1) (zeroD 1))
     [0, 0] 1 .mpo (fun s => (s, 1)) 2 (by decide) (by decide),
   C5_configuration_errors.2.2.1 (idMPA [1, 1, 1]) [zeroD 1] [zeroD 1] [1] 1 .mpo
     (fun s => (s, 1)) 2 (by decide) (by decide) (Or.inl (by decide)),
   C5_configuration_errors.2.2.2.1 (idMPA [1, 1, 1])
     (HamInput.single (zeroD 1) (zeroD 1)) [1] 1 .mpo (fun s => (s, 1)) 3
     (by decide) (by decide) (by decide) (by decide),
   C5_configuration_errors.2.2.2.2 (zeroD 1) [[1, 1], [1, 1, 1]] (by decide)⟩

/-- Witness for C2: a concrete early-error call (times list unchanged)
and a concrete slice-error call (times list already replaced). -/
theorem C2_error_paths_and_caller_data_witness :
    (idMPA [1, 1]).dims.length < 3 ∧
    ((∃ e, (evolve (idMPA [1, 1]) (HamInput.single (zeroD 1) (zeroD 1)) [1] 1 .mpo
        (fun s => (s, 1)) 2).result = .error e) ∧
      (evolve (idMPA [1, 1]) (HamInput.single (zeroD 1) (zeroD 1)) [1] 1 .mpo
        (fun s => (s, 1)) 2).tsAfter = [1] ∧
      (evolve (idMPA [1, 1]) (HamInput.single (zeroD 1) (zeroD 1)) [1] 1 .mpo
        (fun s => (s, 1)) 2).stateAfter = idMPA [1, 1]) ∧
    3 ≤ (idMPA [1, 1, 1]).dims.length ∧
    ([1, 3] : List ℚ).all (fun t => t = 0) = false ∧
    ((evolve (idMPA [1, 1, 1]) (HamInput.single (zeroD 1) (zeroD 1)) [1, 3] 2 .mpo
        (fun s => (s, 1)) 3).result =
      .error ("Trotter order " ++ toString 3 ++ " is currently not implemented.") ∧
      (evolve (idMPA [1, 1, 1]) (HamInput.single (zeroD 1) (zeroD 1)) [1, 3] 2 .mpo
        (fun s => (s, 1)) 3).tsAfter =
        ((_times_to_steps [1, 3] 2).2).map (fun z => (z : ℚ)) ∧
      (evolve (idMPA [1, 1, 1]) (HamInput.single (zeroD 1) (zeroD 1)) [1, 3] 2 .mpo
        (fun s => (s, 1)) 3).stateAfter = idMPA [1, 1, 1]) :=
  ⟨by decide,
   (C2_error_paths_and_caller_data (idMPA [1, 1]) (HamInput.single (zeroD 1) (zeroD 1))
     [1] 1 .mpo (fun s => (s, 1)) 2).1 (Or.inl (by decide)),
   by decide, by decide,
   (C2_error_paths_and_caller_data (idMPA [1, 1, 1])
     (HamInput.single (zeroD 1) (zeroD 1)) [1, 3] 2 .mpo (fun s => (s, 1)) 3).2
     ("Trotter order " ++ toString 3 ++ " is currently not implemented.")
     (by decide) (by decide)
     (trotter_slice_bad_order (HamInput.single (zeroD 1) (zeroD 1))
       ((_times_to_steps [1, 3] 2).1 : ℝ) (idMPA [1, 1, 1]).dims.length 3
       (by decide) (by decide))⟩

/-- Witness for C4 at the concrete call with requested times `[0, 1]`
and one Trotter slice. -/
theorem C4_trace_shape_witness :
    3 ≤ (idMPA [1, 1, 1]).dims.length ∧
    ([0, 1] : List ℚ).all (fun t => t = 0) = false ∧
    (∀ t ∈ ([0, 1] : List ℚ), 0 ≤ t) ∧
    0 < 1 ∧
    (∃ times states ce te,
      (evolve (idMPA [1, 1, 1]) (HamInput.single (zeroD 1) (zeroD 1)) [0, 1] 1 .mpo
          (fun s => (s, 1)) 2).result = .ok (times, states, ce, te) ∧
      states.length = times.length ∧ ce.length = times.length ∧
      te.length = times.length ∧
      times.length = ((_times_to_steps [0, 1] 1).2).dedup.length ∧
      times.Chain' (· < ·) ∧
      ((0 : ℚ) ∈ ([0, 1] : List ℚ) → times.head? = some 0)) :=
  ⟨by decide, by decide, by decide, by decide,
   C4_trace_shape (idMPA [1, 1, 1]) (HamInput.single (zeroD 1) (zeroD 1)) [0, 1] 1 .mpo
     (fun s => (s, 1)) 2 (by decide) (by decide) (by decide) (by decide) trivial
     (Or.inl rfl)⟩

end Tmps
